import Mathlib

/-!
Verification of the HypoDD PHA reader/writer (`obspy/io/hypodd/pha.py`).

Python strings are modelled as `List Char`, Python floats by exact rationals
(and reals where trigonometry enters), Python dicts by association lists and
Python sets by lists used only through membership.  Fallible Python code
(raised `ValueError`s) is modelled with `Except`.
-/

namespace Pha

/-- Python strings are modelled as lists of characters. -/
abbrev Str := List Char

/-- Model of Python `str.isdigit()`: at least one character and all characters
are (ASCII) digits. -/
def pyIsdigit (s : Str) : Bool := !s.isEmpty && s.all Char.isDigit

/-- Value of a digit string read in base 10 (used to relate decimal
representations back to numbers). -/
def strVal (s : Str) : Nat := s.foldl (fun a c => a * 10 + (c.toNat - 48)) 0

/-- Decimal representation of a natural number; model of Python `str(int)`
applied to the non-negative counter. -/
def natDecimal (n : Nat) : Str :=
  if _h : n < 10 then [Nat.digitChar n]
  else natDecimal (n / 10) ++ [Nat.digitChar (n % 10)]
termination_by n
decreasing_by exact Nat.div_lt_self (by omega) (by norm_num)

theorem natDecimal_ne_nil (n : Nat) : natDecimal n ≠ [] := by
  rw [natDecimal]
  split <;> simp

theorem digitChar_isDigit {d : Nat} (h : d < 10) : (Nat.digitChar d).isDigit = true := by
  interval_cases d <;> decide

theorem digitChar_toNat {d : Nat} (h : d < 10) : (Nat.digitChar d).toNat = d + 48 := by
  interval_cases d <;> decide

theorem natDecimal_all_digits (n : Nat) : (natDecimal n).all Char.isDigit = true := by
  induction n using Nat.strong_induction_on with
  | _ n ih =>
    rw [natDecimal]
    split
    next h => simp [digitChar_isDigit h]
    next h =>
      have hd : n / 10 < n := Nat.div_lt_self (by omega) (by norm_num)
      have h1 := ih _ hd
      simp only [List.all_append, List.all_cons, List.all_nil, Bool.and_true,
        Bool.and_eq_true] at h1 ⊢
      exact ⟨h1, digitChar_isDigit (Nat.mod_lt _ (by norm_num))⟩

theorem strVal_append_digit (s : Str) (c : Char) :
    strVal (s ++ [c]) = strVal s * 10 + (c.toNat - 48) := by
  simp [strVal, List.foldl_append]

theorem strVal_natDecimal (n : Nat) : strVal (natDecimal n) = n := by
  induction n using Nat.strong_induction_on with
  | _ n ih =>
    rw [natDecimal]
    split
    next h => simp [strVal, digitChar_toNat h]
    next h =>
      have hd : n / 10 < n := Nat.div_lt_self (by omega) (by norm_num)
      rw [strVal_append_digit, ih _ hd, digitChar_toNat (Nat.mod_lt _ (by norm_num))]
      omega

theorem natDecimal_injective : Function.Injective natDecimal := by
  intro m n h
  have := strVal_natDecimal m
  rw [h, strVal_natDecimal] at this
  omega

theorem natDecimal_length_le {k n : Nat} (hk : 1 ≤ k) (h : n < 10 ^ k) :
    (natDecimal n).length ≤ k := by
  induction k generalizing n with
  | zero => omega
  | succ k ih =>
    rw [natDecimal]
    split
    next h10 => simp
    next h10 =>
      have hk1 : 1 ≤ k := by
        rcases Nat.eq_zero_or_pos k with rfl | hp
        · simp at h; omega
        · exact hp
      have : n / 10 < 10 ^ k := by
        rw [Nat.div_lt_iff_lt_mul (by norm_num)]
        calc n < 10 ^ (k + 1) := h
          _ = 10 ^ k * 10 := by ring
      have := ih hk1 this
      simp only [List.length_append, List.length_cons, List.length_nil]
      omega

/-- Model of Python `str.lower()` (ASCII). -/
def lowerStr (s : Str) : Str := s.map Char.toLower

/-- Whether a magnitude token is the literal "nan" under case-insensitive
comparison, as in `mg.lower() == 'nan'`. -/
def isNanTok (s : Str) : Bool := lowerStr s == ['n', 'a', 'n']

/-- Model of `evid.split('/')[-1] if '/' in evid else evid`: the suffix of the
string after its last `'/'` (the whole string when no `'/'` occurs). -/
def splitLast (s : Str) : Str := (s.reverse.takeWhile (fun c => c ≠ '/')).reverse

/-- Model of Python `str.split()` with no argument: split on runs of
whitespace, producing no empty tokens. -/
def splitWs (s : Str) : List Str :=
  match s with
  | [] => []
  | c :: cs =>
    if c.isWhitespace then splitWs cs
    else (c :: cs.takeWhile (fun d => !d.isWhitespace)) ::
         splitWs (cs.dropWhile (fun d => !d.isWhitespace))
termination_by s.length
decreasing_by
  · simp
  · have h2 : (cs.dropWhile fun d => !d.isWhitespace).length ≤ cs.length :=
      List.Sublist.length_le (List.dropWhile_sublist _)
    simp only [List.length_cons]
    omega

/-- Model of Python `int(tok)` on a whitespace-free token: an optional sign
followed by a non-empty run of digits. -/
def parseIntTok (s : Str) : Option Int :=
  match s with
  | '+' :: r => if pyIsdigit r then some (strVal r : Int) else none
  | '-' :: r => if pyIsdigit r then some (-(strVal r : Int)) else none
  | r => if pyIsdigit r then some (strVal r : Int) else none

/-- Value of a decimal literal with integer part `ip` and fractional digits
`fp`. -/
def decVal (ip fp : Str) : ℚ := (strVal ip : ℚ) + (strVal fp : ℚ) / 10 ^ fp.length

/-- Parse the mantissa of a Python float literal: `digits`, `digits.digits`,
`digits.` or `.digits`. -/
def parseMantissa (s : Str) : Option ℚ :=
  let ip := s.takeWhile Char.isDigit
  match s.dropWhile Char.isDigit with
  | [] => if ip.isEmpty then none else some (strVal ip : ℚ)
  | '.' :: fp =>
    if fp.all Char.isDigit && !(ip.isEmpty && fp.isEmpty) then some (decVal ip fp) else none
  | _ => none

/-- Parse the exponent part of a Python float literal (after `e`/`E`). -/
def parseExpTok (s : Str) : Option Int :=
  match s with
  | '+' :: r => if pyIsdigit r then some (strVal r : Int) else none
  | '-' :: r => if pyIsdigit r then some (-(strVal r : Int)) else none
  | r => if pyIsdigit r then some (strVal r : Int) else none

/-- Parse an unsigned Python float literal, splitting off an optional
exponent. -/
def parseFloatNoSign (s : Str) : Option ℚ :=
  let m := s.takeWhile (fun c => !(c == 'e' || c == 'E'))
  match s.dropWhile (fun c => !(c == 'e' || c == 'E')) with
  | [] => parseMantissa m
  | _ :: etok =>
    match parseMantissa m, parseExpTok etok with
    | some q, some e => some (q * (10 : ℚ) ^ e)
    | _, _ => none

/-- Model of Python `float(tok)` on a whitespace-free finite decimal token. -/
def parseFloatTok (s : Str) : Option ℚ :=
  match s with
  | '+' :: r => parseFloatNoSign r
  | '-' :: r => (parseFloatNoSign r).map Neg.neg
  | r => parseFloatNoSign r

/-- Modelled from the spec: `UTCDateTime(y, mo, dy, h, mi, sc, strict=False)`
(constructor code not under `src/`) performs lenient timestamp validation that
accepts any integer components, normalizing out-of-range values arithmetically
rather than rejecting them; once the six fields parse as numbers the
construction never fails. -/
def lenientTimestampOk (_y _mo _dy _h _mi : Int) (_sc : ℚ) : Bool := true

/-- The first line of a file's contents, as read by `f.readline()` (without
the trailing newline, which the whitespace split discards anyway). -/
def firstLine (content : Str) : Str := content.takeWhile (fun c => c ≠ '\n')

/-- The timestamp part of the detector: tokens 1-5 parse as ints, token 6 as
a float, and the resulting fields feed the lenient `UTCDateTime`
construction. -/
def timeTokensOk (toks : List Str) : Bool :=
  match parseIntTok (toks.getD 1 []), parseIntTok (toks.getD 2 []),
        parseIntTok (toks.getD 3 []), parseIntTok (toks.getD 4 []),
        parseIntTok (toks.getD 5 []), parseFloatTok (toks.getD 6 []) with
  | some y, some mo, some dy, some h, some mi, some sc =>
    lenientTimestampOk y mo dy h mi sc
  | _, _, _, _, _, _ => false

/-- Model of `_is_pha`: a file is `none` when it does not exist, otherwise
`some` of its contents.  Mirrors the try/except structure collapsed to a
boolean: header marker on the first line, exactly 15 whitespace tokens, and a
leniently valid timestamp in tokens 1-6. -/
def isPha (file : Option Str) : Bool :=
  match file with
  | none => false
  | some content =>
    let line := firstLine content
    let toks := splitWs line
    line.head? == some '#' &&
    toks.length == 15 &&
    timeTokensOk toks

/-- Session state threaded through `_map_eventid`: the remap dict
`eventid_map`, the used-id set (a list consulted only through membership), and
the mutable fallback counter `[1000]`. -/
structure MapState where
  map : List (Str × Str)
  used : List Str
  counter : Nat
deriving DecidableEq, Repr

/-- Return shape of `_map_eventid`: the forced-mapping branch returns the bare
string `idpha`, the other branch returns the tuple `(idpha, eventid_map)`
(whose second component is the session dict, carried in the state here). -/
inductive MapRet where
  | bare (s : Str)
  | pair (s : Str)
deriving DecidableEq, Repr

/-- The id string carried by either return shape. -/
def MapRet.idpha : MapRet → Str
  | .bare s => s
  | .pair s => s

/-- The `while idpha == '' or idpha in used_ids` loop of `_map_eventid`: keep
substituting successive decimal counter values until an unclaimed non-empty id
is found.  Fuel `used.length + 2` always suffices (`findFree_isSome`). -/
def findFree (used : List Str) (idpha : Str) (c : Nat) : Nat → Option (Str × Nat)
  | 0 => none
  | fuel + 1 =>
    if idpha.isEmpty || used.contains idpha then findFree used (natDecimal c) (c + 1) fuel
    else some (idpha, c)

/-- The candidate id before truncation: the source id when already all
digits, otherwise its digits only. -/
def strippedId (evid : Str) : Str :=
  if pyIsdigit evid then evid else evid.filter Char.isDigit

/-- The candidate id derived from the source id before the uniqueness loop:
stripped to its digits and truncated to at most 9 characters. -/
def candidateId (evid : Str) : Str :=
  if (strippedId evid).length > 9 then (strippedId evid).take 9 else strippedId evid

/-- Model of `_map_eventid` with the session state passed explicitly; the
raised `ValueError` is `Except.error`. -/
def mapEventid (evid : Str) (st : MapState) : Except Unit (MapRet × MapState) :=
  match List.lookup evid st.map with
  | some idpha =>
    if pyIsdigit idpha = true ∧ idpha.length ≤ 9 then .ok (.bare idpha, st)
    else .error ()
  | none =>
    match findFree st.used (candidateId evid) st.counter (st.used.length + 2) with
    | some (idf, c2) =>
      .ok (.pair idf,
        { map := if idf ≠ evid then st.map ++ [(evid, idf)] else st.map,
          used := st.used ++ [idf],
          counter := c2 })
    | none => .error ()

/-- Feeding a sequence of source ids through `_map_eventid` in order,
collecting the returned id of each call. -/
def mapSession : List Str → MapState → Except Unit (List Str × MapState)
  | [], st => .ok ([], st)
  | e :: es, st =>
    match mapEventid e st with
    | .error u => .error u
    | .ok (r, st1) =>
      match mapSession es st1 with
      | .error u => .error u
      | .ok (outs, st2) => .ok (r.idpha :: outs, st2)

/-- The initial session state of a write: empty remap dict, no used ids,
counter 1000. -/
def initState : MapState := ⟨[], [], 1000⟩

theorem contains_iff_mem {l : List Str} {a : Str} : l.contains a = true ↔ a ∈ l := by
  simp [List.contains]

theorem contains_false_iff {l : List Str} {a : Str} : l.contains a = false ↔ a ∉ l := by
  rw [← contains_iff_mem]
  cases l.contains a <;> simp

theorem isEmpty_false_ne {s : Str} (h : s.isEmpty = false) : s ≠ [] := by
  intro hh
  rw [hh] at h
  simp at h

theorem exists_free_counter (used : List Str) (c : Nat) :
    ∃ k, k ≤ used.length ∧ used.contains (natDecimal (c + k)) = false := by
  by_contra hcon
  push_neg at hcon
  have hmem : ∀ k : Fin (used.length + 1), natDecimal (c + (k : Nat)) ∈ used := by
    intro k
    have hk := hcon (k : Nat) (by omega)
    cases h : used.contains (natDecimal (c + (k : Nat))) with
    | false => exact absurd h hk
    | true => exact contains_iff_mem.mp h
  have hinj : Function.Injective (fun k : Fin (used.length + 1) => natDecimal (c + (k : Nat))) := by
    intro a b hab
    have := natDecimal_injective hab
    exact Fin.ext (by omega)
  have hsub : (Finset.univ.image fun k : Fin (used.length + 1) => natDecimal (c + (k : Nat))) ⊆
      used.toFinset := by
    intro x hx
    rcases Finset.mem_image.mp hx with ⟨k, _, rfl⟩
    exact List.mem_toFinset.mpr (hmem k)
  have hcard := Finset.card_le_card hsub
  rw [Finset.card_image_of_injective _ hinj, Finset.card_univ, Fintype.card_fin] at hcard
  have := used.toFinset_card_le
  omega

theorem findFree_isSome_aux (used : List Str) :
    ∀ (f c : Nat) (idpha : Str),
      ((idpha.isEmpty || used.contains idpha) = false ∨
        ∃ k, k < f ∧
          ((natDecimal (c + k)).isEmpty || used.contains (natDecimal (c + k))) = false) →
      (findFree used idpha c (f + 1)).isSome = true := by
  intro f
  induction f with
  | zero =>
    intro c idpha h
    rcases h with h | ⟨k, hk, _⟩
    · rw [Bool.or_eq_false_iff] at h
      simp [findFree, isEmpty_false_ne h.1, contains_false_iff.mp h.2]
    · omega
  | succ f ih =>
    intro c idpha h
    by_cases hc : (idpha.isEmpty || used.contains idpha) = false
    · have h2 := hc
      rw [Bool.or_eq_false_iff] at h2
      simp [findFree, isEmpty_false_ne h2.1, contains_false_iff.mp h2.2]
    · have hbad : (idpha.isEmpty || used.contains idpha) = true := by
        revert hc; cases idpha.isEmpty || used.contains idpha <;> simp
      rw [findFree, hbad, if_pos rfl]
      apply ih
      rcases h with h | ⟨k, hk, hgood⟩
      · exact absurd h hc
      · cases k with
        | zero => left; simpa using hgood
        | succ j =>
          right
          refine ⟨j, by omega, ?_⟩
          rw [show c + 1 + j = c + (j + 1) by omega]
          exact hgood

theorem findFree_isSome (used : List Str) (idpha : Str) (c : Nat) :
    (findFree used idpha c (used.length + 2)).isSome = true := by
  have := exists_free_counter used c
  rcases this with ⟨k, hk, hfree⟩
  apply findFree_isSome_aux
  right
  refine ⟨k, by omega, ?_⟩
  have hne : (natDecimal (c + k)).isEmpty = false := by
    cases h : (natDecimal (c + k)).isEmpty
    · rfl
    · exact absurd (List.isEmpty_iff.mp h) (natDecimal_ne_nil _)
  rw [hne, hfree]
  rfl

theorem findFree_spec {used : List Str} :
    ∀ {fuel c idpha r c2}, findFree used idpha c fuel = some (r, c2) →
      (r.isEmpty || used.contains r) = false ∧
      ((r = idpha ∧ c2 = c) ∨ (c < c2 ∧ c2 ≤ c + fuel ∧ r = natDecimal (c2 - 1))) := by
  intro fuel
  induction fuel with
  | zero => intro c idpha r c2 h; simp [findFree] at h
  | succ fuel ih =>
    intro c idpha r c2 h
    rw [findFree] at h
    split at h
    · rcases ih h with ⟨hfree, hcase⟩
      refine ⟨hfree, Or.inr ?_⟩
      rcases hcase with ⟨rfl, rfl⟩ | ⟨h1, h2, h3⟩
      · exact ⟨by omega, by omega, by simp⟩
      · exact ⟨by omega, by omega, h3⟩
    · rename_i hgood
      cases h
      exact ⟨by simpa using hgood, Or.inl ⟨rfl, rfl⟩⟩

theorem all_digits_of_subset {l m : Str} (hsub : l ⊆ m) (h : m.all Char.isDigit = true) :
    l.all Char.isDigit = true := by
  rw [List.all_eq_true] at h ⊢
  exact fun c hc => h c (hsub hc)

theorem strippedId_all_digits (evid : Str) : (strippedId evid).all Char.isDigit = true := by
  unfold strippedId
  split
  next hd =>
    unfold pyIsdigit at hd
    exact (Bool.and_eq_true _ _ |>.mp hd).2
  next hd =>
    rw [List.all_eq_true]
    intro c hc
    exact List.of_mem_filter hc

theorem candidateId_all_digits (evid : Str) : (candidateId evid).all Char.isDigit = true := by
  unfold candidateId
  split
  · exact all_digits_of_subset (List.take_subset _ _) (strippedId_all_digits evid)
  · exact strippedId_all_digits evid

theorem candidateId_length_le (evid : Str) : (candidateId evid).length ≤ 9 := by
  unfold candidateId
  split
  next h =>
    rw [List.length_take]
    omega
  next h => omega

theorem mem_of_lookup_eq_some {m : List (Str × Str)} {k v : Str}
    (h : List.lookup k m = some v) : (k, v) ∈ m := by
  rcases List.lookup_eq_some_iff.mp h with ⟨l1, l2, rfl, _⟩
  simp

/-- Validity of stored remap values: exactly what the forced-mapping branch of
`_map_eventid` checks before accepting a stored value. -/
def ValidVals (m : List (Str × Str)) : Prop :=
  ∀ p ∈ m, pyIsdigit p.2 = true ∧ p.2.length ≤ 9

theorem mapEventid_ok {evid : Str} {st : MapState}
    (hv : ValidVals st.map)
    (hcnt : st.counter + st.used.length + 2 ≤ 10 ^ 9) :
    ∃ r st1, mapEventid evid st = .ok (r, st1) ∧
      pyIsdigit r.idpha = true ∧ r.idpha.length ≤ 9 ∧
      ValidVals st1.map ∧
      st1.counter ≤ st.counter + st.used.length + 2 ∧
      st.counter ≤ st1.counter ∧
      st1.used.length ≤ st.used.length + 1 ∧
      (st1.map = st.map ∨ st1.map = st.map ++ [(evid, r.idpha)]) ∧
      (List.lookup evid st.map = none →
        r = .pair r.idpha ∧ r.idpha ∉ st.used ∧ st1.used = st.used ++ [r.idpha]) ∧
      (List.lookup evid st.map ≠ none → st1 = st) := by
  unfold mapEventid
  cases hlk : List.lookup evid st.map with
  | some idpha =>
    have hin : pyIsdigit idpha = true ∧ idpha.length ≤ 9 := hv _ (mem_of_lookup_eq_some hlk)
    refine ⟨.bare idpha, st, ?_⟩
    dsimp only
    rw [if_pos ⟨hin.1, hin.2⟩]
    refine ⟨rfl, hin.1, hin.2, hv, by omega, by omega, by omega, Or.inl rfl, ?_, fun _ => rfl⟩
    intro hnone
    exact absurd hnone (by simp)
  | none =>
    have hsome := findFree_isSome st.used (candidateId evid) st.counter
    rcases Option.isSome_iff_exists.mp hsome with ⟨⟨idf, c2⟩, heq⟩
    rcases findFree_spec heq with ⟨hfree, hcase⟩
    rw [Bool.or_eq_false_iff] at hfree
    have hdig : idf.all Char.isDigit = true := by
      rcases hcase with ⟨rfl, _⟩ | ⟨_, _, rfl⟩
      · exact candidateId_all_digits evid
      · exact natDecimal_all_digits _
    have hpd : pyIsdigit idf = true := by
      unfold pyIsdigit
      rw [hfree.1, hdig]
      rfl
    have hlen : idf.length ≤ 9 := by
      rcases hcase with ⟨rfl, _⟩ | ⟨h1, h2, rfl⟩
      · exact candidateId_length_le evid
      · exact natDecimal_length_le (by norm_num) (by omega)
    refine ⟨.pair idf,
      { map := if idf ≠ evid then st.map ++ [(evid, idf)] else st.map,
        used := st.used ++ [idf], counter := c2 }, ?_⟩
    rw [heq]
    refine ⟨rfl, hpd, hlen, ?_, ?_, ?_, ?_, ?_, ?_, ?_⟩
    · intro p hp
      dsimp only at hp
      split at hp
      · rcases List.mem_append.mp hp with hp1 | hp1
        · exact hv _ hp1
        · rcases List.mem_singleton.mp hp1 with rfl
          exact ⟨hpd, hlen⟩
      · exact hv _ hp
    · dsimp only
      omega
    · dsimp only
      omega
    · simp [List.length_append]
    · dsimp only
      split
      · exact Or.inr rfl
      · next hne =>
        rw [not_not] at hne
        subst hne
        exact Or.inl rfl
    · intro _
      refine ⟨rfl, ?_, rfl⟩
      exact contains_false_iff.mp hfree.2
    · intro hne
      exact absurd rfl hne

theorem mapSession_ok (ids : List Str) :
    ∀ st : MapState, ValidVals st.map →
      st.counter + (ids.length + 1) * (st.used.length + ids.length + 2) ≤ 10 ^ 9 →
      ∃ outs st2, mapSession ids st = .ok (outs, st2) ∧
        outs.length = ids.length ∧
        (∀ o ∈ outs, pyIsdigit o = true ∧ o.length ≤ 9) ∧
        ((∀ e ∈ ids, List.lookup e st.map = none) → ids.Nodup →
          (∀ o ∈ outs, o ∉ st.used) ∧ outs.Nodup) := by
  induction ids with
  | nil =>
    intro st _ _
    exact ⟨[], st, rfl, rfl, by simp, fun _ _ => ⟨by simp, List.nodup_nil⟩⟩
  | cons e es ih =>
    intro st hv hbud
    have hlc : ((e :: es).length + 1) * (st.used.length + (e :: es).length + 2) =
        (es.length + 1) * (st.used.length + es.length + 3) +
          (st.used.length + es.length + 3) := by
      simp only [List.length_cons]
      ring
    rw [hlc] at hbud
    have hstep : st.counter + st.used.length + 2 ≤ 10 ^ 9 := by
      have h1 : 1 * (st.used.length + es.length + 3) ≤
          (es.length + 1) * (st.used.length + es.length + 3) :=
        Nat.mul_le_mul_right _ (by omega)
      omega
    rcases @mapEventid_ok e st hv hstep with
      ⟨r, st1, heq, hpd, hlen9, hv1, hc1, hc0, hu1, hmap1, hfresh1, hstay1⟩
    have hbud1 : st1.counter + (es.length + 1) * (st1.used.length + es.length + 2) ≤ 10 ^ 9 := by
      have h4 : (es.length + 1) * (st1.used.length + es.length + 2) ≤
          (es.length + 1) * (st.used.length + es.length + 3) :=
        Nat.mul_le_mul_left _ (by omega)
      omega
    rcases ih st1 hv1 hbud1 with ⟨outs, st2, heqs, hlns, hvals, hnd⟩
    refine ⟨r.idpha :: outs, st2, ?_, by simp [hlns], ?_, ?_⟩
    · simp only [mapSession, heq, heqs]
    · intro o ho
      rcases List.mem_cons.mp ho with rfl | ho2
      · exact ⟨hpd, hlen9⟩
      · exact hvals o ho2
    · intro hfr hndc
      have hfr_e : List.lookup e st.map = none := hfr e (List.mem_cons_self e es)
      rcases hfresh1 hfr_e with ⟨hpair, hnotused, hused1⟩
      have hnd_es : es.Nodup := (List.nodup_cons.mp hndc).2
      have he_not : e ∉ es := (List.nodup_cons.mp hndc).1
      have hfr1 : ∀ e2 ∈ es, List.lookup e2 st1.map = none := by
        intro e2 he2
        have hne : e ≠ e2 := fun hh => he_not (hh ▸ he2)
        rcases hmap1 with hm | hm
        · rw [hm]
          exact hfr e2 (List.mem_cons_of_mem _ he2)
        · rw [hm, List.lookup_append, hfr e2 (List.mem_cons_of_mem _ he2)]
          have hb : (e2 == e) = false := beq_eq_false_iff_ne.mpr (Ne.symm hne)
          simp [List.lookup_cons, hb]
      rcases hnd hfr1 hnd_es with ⟨havoid, hndo⟩
      constructor
      · intro o ho
        rcases List.mem_cons.mp ho with rfl | ho2
        · exact hnotused
        · have := havoid o ho2
          rw [hused1] at this
          intro hmem
          exact this (List.mem_append.mpr (Or.inl hmem))
      · refine List.nodup_cons.mpr ⟨?_, hndo⟩
        intro hmem
        have := havoid _ hmem
        rw [hused1] at this
        exact this (List.mem_append.mpr (Or.inr (List.mem_singleton.mpr rfl)))

/-- Claim C2, counterexample: feeding the duplicate id sequence "a1", "a1"
through `_map_eventid` from the initial session state returns "1" both times
(the second occurrence hits the remap table recorded by the first), so the
output ids are not unique as the claim states. -/
theorem claim_C2_counterexample :
    (mapSession [['a', '1'], ['a', '1']] initState).toOption.map Prod.fst =
      some [['1'], ['1']] ∧ ¬ ([['1'], ['1']] : List Str).Nodup :=
  ⟨by decide, by decide⟩

/-- Claim C2 (amended): every id returned by a `_map_eventid` session started
from the initial state (empty remap table, empty used set, counter 1000) is a
non-empty all-digit string of at most 9 characters — stated here for sessions
of at most 10000 ids, which keeps the fallback counter below 10^9 — and the
outputs are pairwise distinct whenever the input ids are pairwise distinct.
Determinism is immediate since the session is a pure function of the input
sequence and initial state.  For duplicate inputs uniqueness fails (see the
counterexample): a repeated id that was renumbered reproduces its previously
assigned output. -/
theorem claim_C2 (ids : List Str) (h : ids.length ≤ 10000) :
    ∃ outs st2, mapSession ids initState = .ok (outs, st2) ∧
      outs.length = ids.length ∧
      (∀ o ∈ outs, pyIsdigit o = true ∧ o.length ≤ 9) ∧
      (ids.Nodup → outs.Nodup) := by
  have hbud : initState.counter + (ids.length + 1) * (initState.used.length + ids.length + 2) ≤
      10 ^ 9 := by
    have hm : (ids.length + 1) * (initState.used.length + ids.length + 2) ≤ 10001 * 10002 :=
      Nat.mul_le_mul (by omega) (by show 0 + ids.length + 2 ≤ 10002; omega)
    have hc : initState.counter = 1000 := rfl
    omega
  rcases mapSession_ok ids initState (by intro p hp; simp [initState] at hp) hbud with
    ⟨outs, st2, h1, h2, h3, h4⟩
  refine ⟨outs, st2, h1, h2, h3, fun hnd => (h4 ?_ hnd).2⟩
  intro e _
  simp [initState]

/-- Witness for the amended claim C2 at a concrete input. -/
theorem claim_C2_witness :
    ([['5']] : List Str).length ≤ 10000 ∧
      ∃ outs st2, mapSession [['5']] initState = .ok (outs, st2) ∧
        outs.length = ([['5']] : List Str).length ∧
        (∀ o ∈ outs, pyIsdigit o = true ∧ o.length ≤ 9) ∧
        (([['5']] : List Str).Nodup → outs.Nodup) :=
  ⟨by decide, claim_C2 _ (by decide)⟩

theorem timeTokensOk_iff (toks : List Str) :
    timeTokensOk toks = true ↔
      (parseIntTok (toks.getD 1 [])).isSome = true ∧
      (parseIntTok (toks.getD 2 [])).isSome = true ∧
      (parseIntTok (toks.getD 3 [])).isSome = true ∧
      (parseIntTok (toks.getD 4 [])).isSome = true ∧
      (parseIntTok (toks.getD 5 [])).isSome = true ∧
      (parseFloatTok (toks.getD 6 [])).isSome = true := by
  unfold timeTokensOk
  cases parseIntTok (toks.getD 1 []) <;>
    cases parseIntTok (toks.getD 2 []) <;>
      cases parseIntTok (toks.getD 3 []) <;>
        cases parseIntTok (toks.getD 4 []) <;>
          cases parseIntTok (toks.getD 5 []) <;>
            cases parseFloatTok (toks.getD 6 []) <;>
              simp [lenientTimestampOk]

/-- Claim C6: `_is_pha` returns true exactly for existing files whose first
line starts with '#', splits into exactly 15 whitespace tokens, and whose
tokens 1-6 (fields 2-7) parse as five integers and a float — the leniently
validated timestamp construction never fails on parsed numbers.  In
particular it returns false for non-existent files (`none`) and empty files,
and being a total boolean function it propagates no exception. -/
theorem claim_C6 (file : Option Str) :
    isPha file = true ↔
      ∃ c, file = some c ∧
        (firstLine c).head? = some '#' ∧
        (splitWs (firstLine c)).length = 15 ∧
        (∀ i ∈ [1, 2, 3, 4, 5],
          (parseIntTok ((splitWs (firstLine c)).getD i [])).isSome = true) ∧
        (parseFloatTok ((splitWs (firstLine c)).getD 6 [])).isSome = true := by
  cases file with
  | none => simp [isPha]
  | some c =>
    unfold isPha
    rw [Bool.and_eq_true, Bool.and_eq_true, timeTokensOk_iff]
    constructor
    · rintro ⟨⟨hmark, hlen⟩, h1, h2, h3, h4, h5, h6⟩
      refine ⟨c, rfl, by simpa using hmark, by simpa using hlen, ?_, h6⟩
      intro i hi
      fin_cases hi
      exacts [h1, h2, h3, h4, h5]
    · rintro ⟨c2, hc2, hmark, hlen, hints, hfl⟩
      injection hc2 with hce
      subst hce
      exact ⟨⟨by simpa using hmark, by simpa using hlen⟩,
        hints 1 (by simp), hints 2 (by simp), hints 3 (by simp),
        hints 4 (by simp), hints 5 (by simp), hfl⟩

/-- Modelled from the spec: `UTCDateTime` (its code is not under `src/`) is an
absolute timestamp built leniently from the six header fields.  It is
represented as the raw calendar date plus rational seconds after midnight;
out-of-range time fields are carried arithmetically in `secs` (day carries are
not folded into the date, which is immaterial here since writing and
re-reading exchange exactly these fields). -/
structure UTC where
  year : Int
  month : Int
  day : Int
  secs : ℚ
deriving DecidableEq, Repr

/-- Lenient `UTCDateTime(yr, mo, dy, hr, mn, sc, strict=False)`. -/
def utcMk (y mo dy h mi : Int) (sc : ℚ) : UTC :=
  ⟨y, mo, dy, (h : ℚ) * 3600 + (mi : ℚ) * 60 + sc⟩

/-- Addition `UTCDateTime + seconds` (as in `time + float(reltime)`). -/
def UTC.add (t : UTC) (r : ℚ) : UTC := { t with secs := t.secs + r }

/-- Difference `UTCDateTime - UTCDateTime` in seconds; in this module it is only applied
to a pick time and its origin time, which share the calendar date. -/
def UTC.sub (t u : UTC) : ℚ := t.secs - u.secs

/-- Whole seconds after midnight. -/
def UTC.isec (t : UTC) : Int := ⌊t.secs⌋

/-- The `hour` attribute (day carries stay in the hour in this model). -/
def UTC.hour (t : UTC) : Int := t.isec / 3600

/-- The `minute` attribute. -/
def UTC.minute (t : UTC) : Int := t.isec % 3600 / 60

/-- The `second` attribute. -/
def UTC.second (t : UTC) : Int := t.isec % 60

/-- The `microsecond` attribute. -/
def UTC.micro (t : UTC) : Int := ⌊(t.secs - (t.isec : ℚ)) * 1000000⌋

/-- One pick line of a block after `float()` conversion of its numeric
fields. -/
structure BlockPick where
  sta : Str
  reltime : ℚ
  weight : ℚ
  phase : Str
deriving DecidableEq, Repr

/-- One `#`-delimited event block after `int()`/`float()` conversion of the
header fields.  `mg` is kept textual because the source compares it with the
string "nan" before converting. -/
structure Block where
  yr : Int
  mo : Int
  dy : Int
  hr : Int
  mn : Int
  sc : ℚ
  la : ℚ
  lo : ℚ
  dp : ℚ
  mg : Str
  eh : ℚ
  ez : ℚ
  rms : ℚ
  evid : Str
  picks : List BlockPick
deriving DecidableEq, Repr

/-- Model of `obspy.core.event.Magnitude` (the fields this module touches). -/
structure Magnitude where
  mag : ℚ
  rid : Str
deriving DecidableEq, Repr

/-- Model of `obspy.core.event.Arrival`; the pick resource id is modelled by the
pick's index within its event. -/
structure Arrival where
  phase : Str
  pickId : Nat
  timeWeight : ℚ
deriving DecidableEq, Repr

/-- Model of `obspy.core.event.Pick` (the waveform id is represented by its station
code, which under the default `id_default='.{}..{}'` template is the station
token itself; no claim involves channel codes). -/
structure Pick where
  station : Str
  phaseHint : Str
  time : UTC
deriving DecidableEq, Repr

/-- Model of `obspy.core.event.OriginQuality`. -/
structure OriginQuality where
  phaseCount : Nat
  stdErr : Option ℚ
deriving DecidableEq, Repr

/-- Model of `obspy.core.event.Origin` (latitude/longitude errors live in ℝ because
the longitude error involves a cosine). -/
structure Origin where
  arrivals : List Arrival
  rid : Str
  quality : OriginQuality
  latitude : ℚ
  longitude : ℚ
  depth : ℚ
  latErr : Option ℝ
  lonErr : Option ℝ
  depErr : Option ℚ
  time : UTC

/-- Model of `obspy.core.event.Event`. -/
structure Event where
  rid : Str
  picks : List Pick
  origins : List Origin
  magnitudes : List Magnitude
  prefOriginId : Option Str
  prefMagId : Option Str

/-- The module constant `DEG2KM = 111.2`. -/
def DEG2KM : ℚ := 111.2

/-- Model of `numpy.deg2rad`. -/
noncomputable def deg2rad (d : ℝ) : ℝ := d * (Real.pi / 180)

/-- The event id used for a block: substituted through the inverted
`eventid_map` when that dict is present and has the id. -/
def resolvedId (inv : Option (List (Str × Str))) (evid : Str) : Str :=
  match inv with
  | none => evid
  | some m =>
    match List.lookup evid m with
    | some i => i
    | none => evid

/-- Model of `laterr = None if float(eh) == 0 else float(eh) / DEG2KM`. -/
noncomputable def latErrOf (eh : ℚ) : Option ℝ :=
  if eh = 0 then none else some ((eh : ℝ) / (DEG2KM : ℝ))

/-- Model of `lonerr = None if laterr is None or float(la) > 89 else
laterr / cos(deg2rad(float(la)))`. -/
noncomputable def lonErrOf (eh la : ℚ) : Option ℝ :=
  match latErrOf eh with
  | none => none
  | some laterr =>
    if (89 : ℚ) < la then none else some (laterr / Real.cos (deg2rad (la : ℝ)))

/-- The origin constructed by `_block2event`: arrivals referencing the picks
by index, resource id derived from the event id, quality with the pick count
and the RMS sentinel, coordinates, depth in meters, the derived errors, and
the lenient timestamp. -/
noncomputable def blockOrigin (inv : Option (List (Str × Str))) (b : Block) : Origin :=
  let id0 := resolvedId inv b.evid
  let time := utcMk b.yr b.mo b.dy b.hr b.mn b.sc
  Origin.mk (b.picks.enum.map fun ip => Arrival.mk ip.2.phase ip.1 ip.2.weight)
    ("smi:local/origin/".data ++ id0)
    (OriginQuality.mk
      (b.picks.map fun p => Pick.mk p.sta p.phase (time.add p.reltime)).length
      (if b.rms = 0 then none else some b.rms))
    b.la b.lo (1000 * b.dp) (latErrOf b.eh) (lonErrOf b.eh b.la)
    (if b.ez = 0 then none else some (b.ez * 1000)) time

/-- Model of `_block2event` (with `inventory`/`id_map` absent, so the seed
map is empty and every pick uses the default template). -/
noncomputable def block2event (inv : Option (List (Str × Str))) (b : Block) : Event :=
  let id0 := resolvedId inv b.evid
  let time := utcMk b.yr b.mo b.dy b.hr b.mn b.sc
  let picks := b.picks.map fun p => Pick.mk p.sta p.phase (time.add p.reltime)
  let mags : List Magnitude :=
    if isNanTok b.mg then []
    else [Magnitude.mk ((parseFloatTok b.mg).getD 0) ("smi:local/magnitude/".data ++ id0)]
  let prefMagId : Option Str :=
    if isNanTok b.mg then none else some ("smi:local/magnitude/".data ++ id0)
  Event.mk ("smi:local/event/".data ++ id0) picks [blockOrigin inv b] mags
    (some ("smi:local/origin/".data ++ id0)) prefMagId

/-- The fresh inverted dict `{v: k for k, v in eventid_map.items()}`; stored
reversed so that first-match lookup realizes the dict's last-wins insertion
semantics. -/
def invertMap (m : List (Str × Str)) : List (Str × Str) :=
  (m.map fun p => (p.2, p.1)).reverse

/-- The catalog produced by `_read_pha` from the parsed blocks, given the
already-inverted remap dict. -/
noncomputable def readPhaCat (inv : Option (List (Str × Str))) (blocks : List Block) :
    List Event :=
  blocks.map (block2event inv)

/-- Full model of `_read_pha` at the block level: the caller's `eventid_map`
is inverted into a fresh dict for lookups; the second component is the
caller's dict as left after the call (every operation on it is threaded
here, and there are none that write). -/
noncomputable def readPhaFull (eventid_map : Option (List (Str × Str)))
    (blocks : List Block) : List Event × Option (List (Str × Str)) :=
  (readPhaCat (eventid_map.map invertMap) blocks, eventid_map)

theorem lonErrOf_none_of_gt {eh la : ℚ} (h : (89 : ℚ) < la) : lonErrOf eh la = none := by
  unfold lonErrOf
  cases latErrOf eh <;> simp [h]

theorem lonErrOf_eq (eh la : ℚ) :
    lonErrOf eh la =
      (if eh = 0 ∨ (89 : ℚ) < la then none
       else some ((eh : ℝ) / (DEG2KM : ℝ) / Real.cos (deg2rad (la : ℝ)))) := by
  unfold lonErrOf latErrOf
  by_cases h1 : eh = 0 <;> by_cases h2 : (89 : ℚ) < la <;> simp [h1, h2]

/-- A block at latitude -89.5 degrees with nonzero horizontal error. -/
def polarBlock : Block :=
  { yr := 2000, mo := 1, dy := 1, hr := 0, mn := 0, sc := 0,
    la := -89.5, lo := 0, dp := 0, mg := ['1'], eh := 1, ez := 0, rms := 0,
    evid := ['1'], picks := [] }

/-- Claim C3, counterexample: the source guard at `pha.py:37` is
`float(la) > 89` with no absolute value, so for latitude -89.5 (absolute
value greater than 89) with nonzero horizontal error the longitude error is
still produced, contradicting the claim. -/
theorem claim_C3_counterexample :
    |polarBlock.la| > 89 ∧
      (block2event none polarBlock).origins.map Origin.lonErr ≠ [none] := by
  constructor
  · have hla : polarBlock.la = -89.5 := rfl
    rw [hla, abs_of_neg (by norm_num)]
    norm_num
  · show [lonErrOf polarBlock.eh polarBlock.la] ≠ [none]
    rw [lonErrOf_eq]
    have hcond : ¬(polarBlock.eh = 0 ∨ (89 : ℚ) < polarBlock.la) := by norm_num [polarBlock]
    rw [if_neg hcond]
    simp

/-- Claim C3 (amended): the near-pole guard applies to latitudes greater than
89 degrees (not to latitudes below -89): for every block whose latitude
exceeds 89 the produced origin's longitude error is absent, whatever the
horizontal-error field. -/
theorem claim_C3 (inv : Option (List (Str × Str))) (b : Block) (h : (89 : ℚ) < b.la) :
    ∀ o ∈ (block2event inv b).origins, o.lonErr = none := by
  intro o ho
  have hmap : Origin.lonErr o ∈ (block2event inv b).origins.map Origin.lonErr :=
    List.mem_map_of_mem _ ho
  rw [show (block2event inv b).origins.map Origin.lonErr = [lonErrOf b.eh b.la] from rfl,
    List.mem_singleton] at hmap
  rw [hmap]
  exact lonErrOf_none_of_gt h

/-- Witness for the amended claim C3 at latitude 90. -/
theorem claim_C3_witness :
    (89 : ℚ) < ({ polarBlock with la := 90 } : Block).la ∧
      ∀ o ∈ (block2event none { polarBlock with la := 90 }).origins, o.lonErr = none :=
  ⟨by norm_num [polarBlock], claim_C3 none _ (by norm_num [polarBlock])⟩

/-- Claim C4: the zero sentinels of `_block2event` — a horizontal error of
exactly 0 makes both the latitude and longitude errors absent (`none`, not
zero), otherwise the latitude error is eh/111.2; a vertical error of exactly
0 makes the depth error absent, otherwise it is ez*1000 (km to m); an RMS of
exactly 0 makes the quality standard error absent, otherwise it is the RMS
value.  (The longitude-error equation also records the full semantics
including the pole guard.) -/
theorem claim_C4 (inv : Option (List (Str × Str))) (b : Block) :
    ((block2event inv b).origins.map Origin.latErr =
      [if b.eh = 0 then none else some ((b.eh : ℝ) / (DEG2KM : ℝ))]) ∧
    ((block2event inv b).origins.map Origin.lonErr =
      [if b.eh = 0 ∨ (89 : ℚ) < b.la then none
       else some ((b.eh : ℝ) / (DEG2KM : ℝ) / Real.cos (deg2rad (b.la : ℝ)))]) ∧
    ((block2event inv b).origins.map Origin.depErr =
      [if b.ez = 0 then none else some (b.ez * 1000)]) ∧
    ((block2event inv b).origins.map (fun o => o.quality.stdErr) =
      [if b.rms = 0 then none else some b.rms]) :=
  ⟨rfl, by rw [show (block2event inv b).origins.map Origin.lonErr =
      [lonErrOf b.eh b.la] from rfl, lonErrOf_eq], rfl, rfl⟩

/-- Claim C5: a magnitude token equal to "NaN" case-insensitively yields an
event with no magnitudes and no preferred-magnitude reference; any other
token yields exactly one magnitude carrying the token's parsed value, marked
preferred. -/
theorem claim_C5 (inv : Option (List (Str × Str))) (b : Block) :
    (block2event inv b).magnitudes =
      (if isNanTok b.mg then []
       else [Magnitude.mk ((parseFloatTok b.mg).getD 0)
         ("smi:local/magnitude/".data ++ resolvedId inv b.evid)]) ∧
    (block2event inv b).prefMagId =
      (if isNanTok b.mg then none
       else some ("smi:local/magnitude/".data ++ resolvedId inv b.evid)) :=
  ⟨rfl, rfl⟩

/-- Claim C10: `_read_pha` never mutates the caller's `eventid_map`: the dict
after the call is exactly the argument, and the produced catalog depends on
the argument only through the freshly built inverted dictionary. -/
theorem claim_C10 (m m1 m2 : List (Str × Str)) (blocks : List Block)
    (h : invertMap m1 = invertMap m2) :
    (readPhaFull (some m) blocks).2 = some m ∧
      (readPhaFull (some m1) blocks).1 = (readPhaFull (some m2) blocks).1 := by
  refine ⟨rfl, ?_⟩
  unfold readPhaFull
  simp [h]

/-- Witness for claim C10 at a concrete remap dict and catalog. -/
theorem claim_C10_witness :
    invertMap [(['a'], ['1'])] = invertMap [(['a'], ['1'])] ∧
      ((readPhaFull (some [(['a'], ['1'])]) [polarBlock]).2 = some [(['a'], ['1'])] ∧
        (readPhaFull (some [(['a'], ['1'])]) [polarBlock]).1 =
          (readPhaFull (some [(['a'], ['1'])]) [polarBlock]).1) :=
  ⟨rfl, claim_C10 _ _ _ _ rfl⟩

/-- Warnings emitted by `_write_pha` via `warnings.warn`. -/
inductive Warn where
  | skipNoOrigin
  | magZero
deriving DecidableEq, Repr

/-- One serialized pick line (template PHA2) before text rendering: station
token, relative time rounded to 4 decimals by the `.4f` format, weight,
phase. -/
structure WPick where
  sta : Str
  relt : ℚ
  weight : ℚ
  phase : Str
deriving DecidableEq, Repr

/-- One serialized event header line (template PHA1) with its pick lines,
before text rendering; numeric fields are carried exactly (Python's repr of a
float round-trips through the text). -/
structure WBlock where
  year : Int
  month : Int
  day : Int
  hour : Int
  minute : Int
  second : Int
  micro : Int
  la : ℚ
  lo : ℚ
  depthKm : ℚ
  mag : ℚ
  he : ℝ
  ve : ℚ
  rms : ℚ
  evid : Str
  picks : List WPick

/-- Rounding to 4 decimal places (the `{relt:.4f}` format; the tie-breaking
direction of the format is immaterial to every claim). -/
def round4 (q : ℚ) : ℚ := (round (q * 10000) : ℚ) / 10000

/-- Model of `event.preferred_origin() or event.origins[0]`, the IndexError on an
empty origin list mapped to `none`. -/
def resolvePrefOrigin (e : Event) : Option Origin :=
  match (match e.prefOriginId with
         | some i => e.origins.find? (fun o => o.rid == i)
         | none => none) with
  | some o => some o
  | none => e.origins.head?

/-- Model of `event.preferred_magnitude() or event.magnitudes[0]` likewise. -/
def resolvePrefMag (e : Event) : Option Magnitude :=
  match (match e.prefMagId with
         | some i => e.magnitudes.find? (fun m => m.rid == i)
         | none => none) with
  | some m => some m
  | none => e.magnitudes.head?

/-- The per-event weight dict `weights[str(arrival.pick_id)] =
arrival.time_weight`; dict insertion is last-wins, realized by first-match
lookup over the reversed list. -/
def weightsOf (o : Origin) : List (Nat × ℚ) :=
  (o.arrivals.map fun a => (a.pickId, a.timeWeight)).reverse

/-- The serialized pick lines of an event (weight 1.0 when no arrival
references the pick). -/
def wpicksOf (e : Event) (o : Origin) : List WPick :=
  e.picks.enum.map fun ip =>
    WPick.mk ip.2.station (round4 (ip.2.time.sub o.time))
      ((List.lookup ip.1 (weightsOf o)).getD 1) ip.2.phaseHint

/-- The serialization of one event given its resolved origin, magnitude
value, and already-mapped event id. -/
noncomputable def wblockOf (o : Origin) (mag : ℚ) (evid : Str) (e : Event) : WBlock :=
  { year := o.time.year, month := o.time.month, day := o.time.day,
    hour := o.time.hour, minute := o.time.minute, second := o.time.second,
    micro := o.time.micro,
    la := o.latitude, lo := o.longitude, depthKm := o.depth / 1000,
    mag := mag,
    he := max (match o.latErr with | none => 0 | some x => x * (DEG2KM : ℝ))
              (match o.lonErr with
               | none => 0
               | some x => x * (DEG2KM : ℝ) * Real.cos (deg2rad (o.latitude : ℝ))),
    ve := match o.depErr with | none => 0 | some x => x / 1000,
    rms := (o.quality.stdErr).getD 0,
    evid := evid,
    picks := wpicksOf e o }

/-- One iteration of the `_write_pha` event loop.  Besides the emitted block
and warnings it returns the updated session state and the local binding of
the name `eventid_map`, which the two-name unpacking of `_map_eventid`'s
return value can rebind: `none` while the name still refers to the session
dict, `some s` after a bare string return of length 2 was unpacked (the name
then holds the string's second character); a bare return of any other length
raises ValueError at the unpacking. -/
noncomputable def writeStep (st : MapState) (bound : Option Str) (e : Event) :
    Except Unit (Option WBlock × List Warn × MapState × Option Str) :=
  match resolvePrefOrigin e with
  | none => .ok (none, [.skipNoOrigin], st, bound)
  | some ori =>
    let magw : ℚ × List Warn :=
      match resolvePrefMag e with
      | none => (0, [.magZero])
      | some m => (m.mag, [])
    match mapEventid (splitLast e.rid) st with
    | .error u => .error u
    | .ok (.pair s, st1) =>
      .ok (some (wblockOf ori magw.1 s e), magw.2, st1, bound)
    | .ok (.bare s, st1) =>
      match s with
      | [c1, c2] => .ok (some (wblockOf ori magw.1 [c1] e), magw.2, st1, some [c2])
      | _ => .error ()

/-- The `_write_pha` event loop over the catalog. -/
noncomputable def writePhaGo :
    List Event → MapState → Option Str →
      Except Unit (List WBlock × List Warn × MapState × Option Str)
  | [], st, bound => .ok ([], [], st, bound)
  | e :: es, st, bound =>
    match writeStep st bound e with
    | .error u => .error u
    | .ok (wbo, ws, st1, bound1) =>
      match writePhaGo es st1 bound1 with
      | .error u => .error u
      | .ok (wbs, ws2, st2, bound2) => .ok (wbo.toList ++ wbs, ws ++ ws2, st2, bound2)

/-- What `_write_pha` returns: `None`, the remap dict, or — through the
rebinding artifact — a plain string. -/
inductive WriteRet where
  | nothing
  | table (m : List (Str × Str))
  | junk (s : Str)
deriving DecidableEq, Repr

/-- The initial dict of a write: the caller's `eventid_map` or `{}`. -/
def seedMap (seed : Option (List (Str × Str))) : List (Str × Str) :=
  match seed with
  | none => []
  | some m => m

/-- Model of `_write_pha`: the serialized blocks, the warnings, and the
return value `None if len(eventid_map) == 0 else eventid_map` evaluated on
the possibly rebound local name. -/
noncomputable def writePha (cat : List Event) (seed : Option (List (Str × Str))) :
    Except Unit (List WBlock × List Warn × WriteRet) :=
  let m0 := seedMap seed
  match writePhaGo cat ⟨m0, m0.map Prod.snd, 1000⟩ none with
  | .error u => .error u
  | .ok (wbs, ws, st2, bound) =>
    .ok (wbs, ws,
      match bound with
      | none => if st2.map.isEmpty then .nothing else .table st2.map
      | some s => if s.isEmpty then .nothing else .junk s)

theorem resolvePrefOrigin_none {e : Event} (h : e.origins = []) :
    resolvePrefOrigin e = none := by
  unfold resolvePrefOrigin
  rw [h]
  cases e.prefOriginId <;> simp

theorem resolvePrefOrigin_of_ne {e : Event} (h : e.origins ≠ []) :
    ∃ o, resolvePrefOrigin e = some o := by
  unfold resolvePrefOrigin
  rcases he : e.origins with _ | ⟨o0, os⟩
  · exact absurd he h
  cases hp : e.prefOriginId with
  | none => exact ⟨o0, rfl⟩
  | some i =>
    cases hf : (o0 :: os).find? (fun o => o.rid == i) with
    | some o => exact ⟨o, by simp [hf]⟩
    | none => exact ⟨o0, by simp [hf]⟩

theorem resolvePrefMag_none {e : Event} (h : e.magnitudes = []) :
    resolvePrefMag e = none := by
  unfold resolvePrefMag
  rw [h]
  cases e.prefMagId <;> simp

/-- Branch 2 of `_map_eventid` in closed form. -/
theorem mapEventid_of_lookup_none {evid : Str} {st : MapState}
    (h : List.lookup evid st.map = none) :
    ∃ s c2,
      findFree st.used (candidateId evid) st.counter (st.used.length + 2) = some (s, c2) ∧
      mapEventid evid st =
        .ok (.pair s,
          { map := if s ≠ evid then st.map ++ [(evid, s)] else st.map,
            used := st.used ++ [s], counter := c2 }) := by
  have hsome := findFree_isSome st.used (candidateId evid) st.counter
  rcases Option.isSome_iff_exists.mp hsome with ⟨⟨s, c2⟩, heq⟩
  refine ⟨s, c2, heq, ?_⟩
  unfold mapEventid
  rw [h, heq]

/-- An event whose id is "X", with one origin and one magnitude. -/
def eventX : Event :=
  { rid := ['X'], picks := [],
    origins := [Origin.mk [] ['o'] (OriginQuality.mk 0 none) 0 0 0 none none none
      (utcMk 2000 1 1 0 0 0)],
    magnitudes := [Magnitude.mk 1 ['m']],
    prefOriginId := none, prefMagId := none }

/-- Claim C7 (code bug): `_map_eventid`'s forced-mapping branch returns the
bare string (pha.py:161) while its other branch returns a tuple
(pha.py:172) and the caller unpacks two values (pha.py:209).  With the valid
forced mapping 'X' -> '123' the write therefore raises ValueError at the
unpacking instead of emitting "123"; with 'X' -> '12' the string itself is
unpacked and the event is written with id "1" instead of "12". -/
theorem claim_C7 :
    writePha [eventX] (some [(['X'], ['1', '2', '3'])]) = .error () ∧
      (writePha [eventX] (some [(['X'], ['1', '2'])])).map
        (fun r => r.1.map WBlock.evid) = .ok [['1']] :=
  ⟨rfl, rfl⟩

/-- Claim C8: during `_write_pha` an event without any origin is skipped with
a non-fatal warning, leaving the session state untouched while the write
continues on the remaining events; an event with an origin but no magnitude
is written with a synthesized magnitude of 0.0 and a non-fatal warning, the
write again continuing.  Neither condition raises. -/
theorem claim_C8 (e1 e2 : Event) (rest : List Event) (st : MapState) (bound : Option Str)
    (h1 : e1.origins = [])
    (h2 : e2.origins ≠ []) (h2m : e2.magnitudes = [])
    (h2id : List.lookup (splitLast e2.rid) st.map = none) :
    (writePhaGo (e1 :: rest) st bound =
      (writePhaGo rest st bound).map fun r => (r.1, Warn.skipNoOrigin :: r.2.1, r.2.2)) ∧
    (∃ ori wb st1,
      resolvePrefOrigin e2 = some ori ∧
      writeStep st bound e2 = .ok (some wb, [Warn.magZero], st1, bound) ∧
      wb.mag = 0 ∧
      writePhaGo (e2 :: rest) st bound =
        (writePhaGo rest st1 bound).map fun r => (wb :: r.1, Warn.magZero :: r.2.1, r.2.2)) := by
  have hstep1 : writeStep st bound e1 = .ok (none, [.skipNoOrigin], st, bound) := by
    unfold writeStep
    rw [resolvePrefOrigin_none h1]
  rcases resolvePrefOrigin_of_ne h2 with ⟨ori, hori⟩
  rcases mapEventid_of_lookup_none h2id with ⟨s, c2, hff, hme⟩
  have hstep2 : writeStep st bound e2 =
      .ok (some (wblockOf ori 0 s e2), [Warn.magZero],
        { map := if s ≠ splitLast e2.rid then st.map ++ [(splitLast e2.rid, s)] else st.map,
          used := st.used ++ [s], counter := c2 }, bound) := by
    unfold writeStep
    rw [hori, resolvePrefMag_none h2m, hme]
  constructor
  · cases hr : writePhaGo rest st bound with
    | error u =>
      simp only [writePhaGo, hstep1, hr, Except.map]
    | ok r =>
      rcases r with ⟨wbs, ⟨ws2, st2, bound2⟩⟩
      simp only [writePhaGo, hstep1, hr, Except.map, Option.toList_none, List.nil_append,
        List.singleton_append]
  · refine ⟨ori, wblockOf ori 0 s e2, _, hori, hstep2, rfl, ?_⟩
    cases hr : writePhaGo rest
        { map := if s ≠ splitLast e2.rid then st.map ++ [(splitLast e2.rid, s)] else st.map,
          used := st.used ++ [s], counter := c2 } bound with
    | error u =>
      simp only [writePhaGo, hstep2, hr, Except.map]
    | ok r =>
      rcases r with ⟨wbs, ⟨ws2, st2, bound2⟩⟩
      simp only [writePhaGo, hstep2, hr, Except.map, Option.toList_some, List.singleton_append]

/-- An event with one origin, no magnitudes, and id "7". -/
def eventNoMag : Event :=
  { rid := ['7'], picks := [],
    origins := [Origin.mk [] ['o'] (OriginQuality.mk 0 none) 0 0 0 none none none
      (utcMk 2000 1 1 0 0 0)],
    magnitudes := [], prefOriginId := none, prefMagId := none }

/-- An event with no origins at all. -/
def eventNoOrigin : Event :=
  { rid := ['8'], picks := [], origins := [], magnitudes := [],
    prefOriginId := none, prefMagId := none }

/-- Witness for claim C8 at concrete events. -/
theorem claim_C8_witness :
    eventNoOrigin.origins = [] ∧ eventNoMag.origins ≠ [] ∧ eventNoMag.magnitudes = [] ∧
      List.lookup (splitLast eventNoMag.rid) initState.map = none ∧
      ((writePhaGo [eventNoOrigin] initState none =
        (writePhaGo [] initState none).map
          fun r => (r.1, Warn.skipNoOrigin :: r.2.1, r.2.2)) ∧
      (∃ ori wb st1,
        resolvePrefOrigin eventNoMag = some ori ∧
        writeStep initState none eventNoMag = .ok (some wb, [Warn.magZero], st1, none) ∧
        wb.mag = 0 ∧
        writePhaGo [eventNoMag] initState none =
          (writePhaGo [] st1 none).map
            fun r => (wb :: r.1, Warn.magZero :: r.2.1, r.2.2))) :=
  ⟨rfl, by simp [eventNoMag], rfl, rfl,
    claim_C8 eventNoOrigin eventNoMag [] initState none rfl (by simp [eventNoMag]) rfl rfl⟩

/-- An event with one origin and one magnitude whose id is the numeric string
"123". -/
def event123 : Event :=
  { rid := ['1', '2', '3'], picks := [],
    origins := [Origin.mk [] ['o'] (OriginQuality.mk 0 none) 0 0 0 none none none
      (utcMk 2000 1 1 0 0 0)],
    magnitudes := [Magnitude.mk 1 ['m']],
    prefOriginId := none, prefMagId := none }

/-- Claim C9, counterexample: with the pre-seeded remap table 99 -> 7 and a
catalog whose only id "123" is emitted unchanged — the second conjunct shows
the written id equals the source id, and the returned table equals the seed,
so nothing was renumbered during the write — `_write_pha` still returns the
table rather than None. -/
theorem claim_C9_counterexample :
    (writePha [event123] (some [(['9', '9'], ['7'])])).map (fun r => r.2.2) =
      .ok (.table [(['9', '9'], ['7'])]) ∧
    (writePha [event123] (some [(['9', '9'], ['7'])])).map (fun r => r.1.map WBlock.evid) =
      .ok [['1', '2', '3']] :=
  ⟨rfl, rfl⟩

/-- The write loop on a catalog with fresh, pairwise distinct post-split ids:
each event goes through branch 2 of `_map_eventid`, `eventid_map` is never
rebound, and the dict grows exactly by the renumbering entries. -/
theorem writePhaGo_ok (cat : List Event) :
    ∀ st : MapState,
      (∀ e ∈ cat, List.lookup (splitLast e.rid) st.map = none) →
      ((cat.map fun e => splitLast e.rid).Nodup) →
      ∃ wbs ws st2, writePhaGo cat st none = .ok (wbs, ws, st2, none) ∧
        ∃ extra, st2.map = st.map ++ extra ∧
          ∀ p ∈ extra, p.2 ≠ p.1 ∧ p.1 ∈ cat.map fun e => splitLast e.rid := by
  induction cat with
  | nil =>
    intro st _ _
    exact ⟨[], [], st, rfl, [], by simp, by simp⟩
  | cons e es ih =>
    intro st hf hnd
    rw [List.map_cons] at hnd
    have hhd := (List.nodup_cons.mp hnd).1
    have htl := (List.nodup_cons.mp hnd).2
    rcases ho : resolvePrefOrigin e with _ | ori
    · have hstep : writeStep st none e = .ok (none, [.skipNoOrigin], st, none) := by
        unfold writeStep
        rw [ho]
      rcases ih st (fun e2 he2 => hf e2 (List.mem_cons_of_mem _ he2)) htl with
        ⟨wbs, ws, st2, hgo, extra, hmap, hex⟩
      refine ⟨wbs, .skipNoOrigin :: ws, st2, ?_, extra, hmap, ?_⟩
      · simp only [writePhaGo, hstep, hgo, Option.toList_none, List.nil_append,
          List.singleton_append]
      · intro p hp
        exact ⟨(hex p hp).1, by rw [List.map_cons]; exact List.mem_cons_of_mem _ (hex p hp).2⟩
    · have hfe : List.lookup (splitLast e.rid) st.map = none := hf e (List.mem_cons_self e es)
      rcases mapEventid_of_lookup_none hfe with ⟨s, c2, hff, hme⟩
      have hstep : ∃ wb ws0, writeStep st none e =
          .ok (some wb, ws0,
            { map := if s ≠ splitLast e.rid then st.map ++ [(splitLast e.rid, s)] else st.map,
              used := st.used ++ [s], counter := c2 }, none) := by
        unfold writeStep
        rw [ho, hme]
        cases resolvePrefMag e <;> exact ⟨_, _, rfl⟩
      rcases hstep with ⟨wb, ws0, hstep⟩
      have hfr1 : ∀ e2 ∈ es,
          List.lookup (splitLast e2.rid)
            (if s ≠ splitLast e.rid then st.map ++ [(splitLast e.rid, s)] else st.map) =
            none := by
        intro e2 he2
        have hne : splitLast e.rid ≠ splitLast e2.rid := by
          intro hh
          exact hhd (hh ▸ List.mem_map_of_mem _ he2)
        split
        · rw [List.lookup_append, hf e2 (List.mem_cons_of_mem _ he2)]
          have hb : (splitLast e2.rid == splitLast e.rid) = false :=
            beq_eq_false_iff_ne.mpr (Ne.symm hne)
          simp [List.lookup_cons, hb]
        · exact hf e2 (List.mem_cons_of_mem _ he2)
      have hres := ih (MapState.mk
        (if s ≠ splitLast e.rid then st.map ++ [(splitLast e.rid, s)] else st.map)
        (st.used ++ [s]) c2) hfr1 htl
      rcases hres with ⟨wbs, ws, st2, hgo, extra, hmap, hex⟩
      refine ⟨wb :: wbs, ws0 ++ ws, st2, ?_, ?_⟩
      · simp only [writePhaGo, hstep, hgo, Option.toList_some, List.singleton_append]
      · refine ⟨(if s ≠ splitLast e.rid then [(splitLast e.rid, s)] else []) ++ extra, ?_, ?_⟩
        · rw [hmap]
          dsimp only
          split <;> simp
        · intro p hp
          rcases List.mem_append.mp hp with hp1 | hp1
          · rw [List.map_cons]
            split at hp1
            next hne2 =>
              rcases List.mem_singleton.mp hp1 with rfl
              exact ⟨hne2, List.mem_cons_self _ _⟩
            next hne2 => simp at hp1
          · rw [List.map_cons]
            exact ⟨(hex p hp1).1, List.mem_cons_of_mem _ (hex p hp1).2⟩

/-- Claim C9 (amended): on catalogs whose post-split event ids are pairwise
distinct and absent from the pre-seeded table (so that the forced-mapping
unpacking bug of C7 is not triggered), `_write_pha` returns the remap table
exactly when the table is non-empty at the end of the write — i.e. when an
id was renumbered during the write or the caller pre-seeded a non-empty
table — and None exactly when it is empty; the final table is the seed plus
one entry per renumbered id. -/
theorem claim_C9 (cat : List Event) (seed : Option (List (Str × Str)))
    (hf : ∀ e ∈ cat, List.lookup (splitLast e.rid) (seedMap seed) = none)
    (hnd : (cat.map fun e => splitLast e.rid).Nodup) :
    ∃ (wbs : List WBlock) (ws : List Warn) (st2 : MapState) (extra : List (Str × Str)),
      writePha cat seed =
        .ok (wbs, ws, if st2.map.isEmpty then WriteRet.nothing else .table st2.map) ∧
      st2.map = seedMap seed ++ extra ∧
      (∀ p ∈ extra, p.2 ≠ p.1 ∧ p.1 ∈ cat.map fun e => splitLast e.rid) := by
  rcases writePhaGo_ok cat ⟨seedMap seed, (seedMap seed).map Prod.snd, 1000⟩
      hf hnd with ⟨wbs, ws, st2, hgo, extra, hmap, hex⟩
  refine ⟨wbs, ws, st2, extra, ?_, hmap, hex⟩
  unfold writePha
  dsimp only
  rw [hgo]

/-- Witness for the amended claim C9: a catalog with the single id "123" and
no pre-seeded table. -/
theorem claim_C9_witness :
    (∀ e ∈ [event123], List.lookup (splitLast e.rid) (seedMap none) = none) ∧
      (([event123].map fun e => splitLast e.rid).Nodup) ∧
      ∃ (wbs : List WBlock) (ws : List Warn) (st2 : MapState) (extra : List (Str × Str)),
        writePha [event123] none =
          .ok (wbs, ws, if st2.map.isEmpty then WriteRet.nothing else .table st2.map) ∧
        st2.map = seedMap none ++ extra ∧
        (∀ p ∈ extra, p.2 ≠ p.1 ∧ p.1 ∈ [event123].map fun e => splitLast e.rid) :=
  ⟨by simp [seedMap], by simp,
    claim_C9 [event123] none (by simp [seedMap]) (by simp)⟩

open Classical in
/-- Re-reading one serialized block: `_read_pha` applied to the written
text.  The exact-decimal serialize/parse of each numeric field is collapsed
to the identity (Python's repr of a float round-trips through its text); the
written magnitude token is numeric, hence never "nan", so the re-read event
always carries one magnitude.  The transformation mirrors `block2event` on
the emitted fields. -/
noncomputable def readWBlock (wb : WBlock) : Event :=
  let id0 := wb.evid
  let time := utcMk wb.year wb.month wb.day wb.hour wb.minute
    ((wb.second : ℚ) + (wb.micro : ℚ) / 1000000)
  let laterr : Option ℝ := if wb.he = 0 then none else some (wb.he / (DEG2KM : ℝ))
  let lonerr : Option ℝ :=
    match laterr with
    | none => none
    | some le =>
      if (89 : ℚ) < wb.la then none else some (le / Real.cos (deg2rad (wb.la : ℝ)))
  let ez : Option ℚ := if wb.ve = 0 then none else some (wb.ve * 1000)
  let rms : Option ℚ := if wb.rms = 0 then none else some wb.rms
  let picks := wb.picks.map fun p => Pick.mk p.sta p.phase (time.add p.relt)
  let arrivals := wb.picks.enum.map fun ip => Arrival.mk ip.2.phase ip.1 ip.2.weight
  let qu := OriginQuality.mk picks.length rms
  let origin := Origin.mk arrivals ("smi:local/origin/".data ++ id0) qu
    wb.la wb.lo (1000 * wb.depthKm) laterr lonerr ez time
  Event.mk ("smi:local/event/".data ++ id0) picks [origin]
    [Magnitude.mk wb.mag ("smi:local/magnitude/".data ++ id0)]
    (some ("smi:local/origin/".data ++ id0))
    (some ("smi:local/magnitude/".data ++ id0))

theorem utc_add_sub (t : UTC) (r : ℚ) : (t.add r).sub t = r := by
  unfold UTC.add UTC.sub
  ring

theorem utc_reconstruct (t : UTC) (n : ℤ) (h : t.secs * 1000000 = (n : ℚ)) :
    (t.hour : ℚ) * 3600 + (t.minute : ℚ) * 60 + ((t.second : ℚ) + (t.micro : ℚ) / 1000000) =
      t.secs := by
  have hsum : t.hour * 3600 + t.minute * 60 + t.second = t.isec := by
    unfold UTC.hour UTC.minute UTC.second
    omega
  have hmicro : t.micro = n - t.isec * 1000000 := by
    unfold UTC.micro
    have hcast : (t.secs - (t.isec : ℚ)) * 1000000 = ((n - t.isec * 1000000 : ℤ) : ℚ) := by
      push_cast
      rw [← h]
      ring
    rw [hcast, Int.floor_intCast]
  have hfloor : ((t.isec : ℚ)) = t.secs - (t.micro : ℚ) / 1000000 := by
    rw [hmicro]
    push_cast
    rw [← h]
    ring
  have hq : ((t.hour * 3600 + t.minute * 60 + t.second : ℤ) : ℚ) = ((t.isec : ℤ) : ℚ) := by
    exact_mod_cast congrArg (fun z : ℤ => (z : ℚ)) hsum
  push_cast at hq
  rw [hfloor] at hq
  linarith [hq]

theorem cos_deg_pos {la : ℚ} (h1 : (-90 : ℚ) < la) (h2 : la ≤ 89) :
    0 < Real.cos (deg2rad (la : ℝ)) := by
  apply Real.cos_pos_of_mem_Ioo
  have hpi := Real.pi_pos
  have hla1 : (-90 : ℝ) < (la : ℝ) := by exact_mod_cast h1
  have hla2 : (la : ℝ) ≤ 89 := by exact_mod_cast h2
  constructor
  · show -(Real.pi / 2) < deg2rad (la : ℝ)
    unfold deg2rad
    nlinarith
  · show deg2rad (la : ℝ) < Real.pi / 2
    unfold deg2rad
    nlinarith

theorem findFree_of_good {used : List Str} {idpha : Str} {c fuel : Nat}
    (h : (idpha.isEmpty || used.contains idpha) = false) :
    findFree used idpha c (fuel + 1) = some (idpha, c) := by
  rw [findFree, h]
  rfl

theorem takeWhile_ne_append {q : Char → Bool} :
    ∀ (l1 : Str) (x : Char) (l2 : Str), (∀ c ∈ l1, q c = true) → q x = false →
      (l1 ++ x :: l2).takeWhile q = l1 := by
  intro l1
  induction l1 with
  | nil =>
    intro x l2 _ hx
    simp [List.takeWhile_cons, hx]
  | cons a l ih =>
    intro x l2 hall hx
    have ha : q a = true := hall a (List.mem_cons_self _ _)
    simp only [List.cons_append, List.takeWhile_cons, ha, if_true]
    rw [ih x l2 (fun c hc => hall c (List.mem_cons_of_mem _ hc)) hx]

theorem splitLast_append (pre id : Str) (h : '/' ∉ id) :
    splitLast (pre ++ '/' :: id) = id := by
  unfold splitLast
  rw [List.reverse_append, List.reverse_cons]
  rw [List.append_assoc, List.singleton_append]
  rw [takeWhile_ne_append _ _ _ ?hall ?hx]
  · exact List.reverse_reverse id
  case hall =>
    intro c hc
    have : c ∈ id := List.mem_reverse.mp hc
    simp only [decide_eq_true_eq]
    intro hh
    exact h (hh ▸ this)
  case hx => simp

theorem digit_str_no_slash {s : Str} (h : s.all Char.isDigit = true) : '/' ∉ s := by
  intro hmem
  have := (List.all_eq_true.mp h) _ hmem
  exact absurd this (by decide)

theorem lookup_enumFrom_map {α β : Type} (f : α → β) :
    ∀ (l : List α) (s i : Nat) (a : α), l.get? i = some a →
      List.lookup (s + i) ((l.enumFrom s).map fun ip => (ip.1, f ip.2)) = some (f a) := by
  intro l
  induction l with
  | nil => intro s i a h; simp at h
  | cons x xs ih =>
    intro s i a h
    cases i with
    | zero =>
      rw [List.get?_cons_zero] at h
      injection h with h
      subst h
      simp [List.enumFrom, List.lookup_cons]
    | succ j =>
      rw [List.get?_cons_succ] at h
      have hne : (s + (j + 1) == s) = false := by
        rw [beq_eq_false_iff_ne]
        omega
      simp only [List.enumFrom, List.map_cons, List.lookup_cons, hne]
      have := ih (s + 1) j a h
      rw [show s + 1 + j = s + (j + 1) by omega] at this
      exact this

theorem lookup_mem_keys {l : List (Nat × ℚ)} {k : Nat} {v : ℚ}
    (h : List.lookup k l = some v) : k ∈ l.map Prod.fst := by
  have : (List.lookup k l).isSome := by rw [h]; rfl
  rcases List.lookup_isSome_iff.mp this with ⟨p, hp, hk⟩
  rw [List.mem_map]
  exact ⟨p, hp, (beq_iff_eq.mp hk).symm⟩

theorem lookup_reverse_eq {l : List (Nat × ℚ)} (h : (l.map Prod.fst).Nodup) (k : Nat) :
    List.lookup k l.reverse = List.lookup k l := by
  induction l with
  | nil => rfl
  | cons a l ih =>
    rcases a with ⟨ka, va⟩
    rw [List.map_cons, List.nodup_cons] at h
    rw [List.reverse_cons, List.lookup_append, ih h.2]
    cases hl : List.lookup k l with
    | some v =>
      have hk : k ∈ l.map Prod.fst := lookup_mem_keys hl
      have hne : (k == ka) = false := by
        rw [beq_eq_false_iff_ne]
        intro hh
        exact h.1 (hh ▸ hk)
      simp [List.lookup_cons, hne, hl]
    | none =>
      cases hka : (k == ka) <;> simp [List.lookup_cons, hka, hl]

/-- The per-event round-trip relation of claim C1: identical origin time,
latitude, longitude, depth, error fields and quality standard error; pick
phases and stations preserved pointwise; the re-read relative pick time is
the original relative time rounded to 4 decimals; arrivals (and with them the
weights) preserved. -/
def EventRT (e1 e2 : Event) : Prop :=
  ∃ o1 o2, e1.origins = [o1] ∧ e2.origins = [o2] ∧
    o2.time = o1.time ∧ o2.latitude = o1.latitude ∧ o2.longitude = o1.longitude ∧
    o2.depth = o1.depth ∧ o2.latErr = o1.latErr ∧ o2.lonErr = o1.lonErr ∧
    o2.depErr = o1.depErr ∧ o2.quality.stdErr = o1.quality.stdErr ∧
    e2.picks.length = e1.picks.length ∧
    (∀ i p1 p2, e1.picks.get? i = some p1 → e2.picks.get? i = some p2 →
      p2.phaseHint = p1.phaseHint ∧ p2.station = p1.station ∧
      p2.time.sub o2.time = round4 (p1.time.sub o1.time)) ∧
    o2.arrivals = o1.arrivals

/-- Well-formedness of a block for the round-trip claim: purely numeric event
id of at most 9 digits, non-negative horizontal error, latitude above -90
degrees, and origin seconds of at most microsecond precision. -/
def WfBlock (b : Block) : Prop :=
  pyIsdigit b.evid = true ∧ b.evid.length ≤ 9 ∧
  0 ≤ b.eh ∧ (-90 : ℚ) < b.la ∧
  ∃ n : ℤ, b.sc = (n : ℚ) / 1000000

theorem mapEventid_fresh {evid : Str} {used : List Str} {c : Nat}
    (hd : pyIsdigit evid = true) (hlen : evid.length ≤ 9) (hu : evid ∉ used) :
    mapEventid evid ⟨[], used, c⟩ = .ok (.pair evid, ⟨[], used ++ [evid], c⟩) := by
  unfold mapEventid
  rw [List.lookup_nil]
  have hcand : candidateId evid = evid := by
    unfold candidateId strippedId
    rw [if_pos hd, if_neg (by omega)]
  rw [hcand]
  have h1 : evid.isEmpty = false := by
    unfold pyIsdigit at hd
    cases hi : evid.isEmpty
    · rfl
    · rw [hi] at hd
      simp at hd
  have hgood : (evid.isEmpty || used.contains evid) = false := by
    rw [h1, contains_false_iff.mpr hu]
    rfl
  rw [show used.length + 2 = (used.length + 1) + 1 from rfl, findFree_of_good hgood]
  simp

/-- The magnitude value written for a block's event: the parsed token, or 0.0
when the block had none. -/
def blockMagVal (b : Block) : ℚ :=
  if isNanTok b.mg then 0 else (parseFloatTok b.mg).getD 0

/-- The warnings produced while writing a block's event. -/
def blockWarns (b : Block) : List Warn :=
  if isNanTok b.mg then [Warn.magZero] else []

theorem resolvePrefOrigin_block (inv : Option (List (Str × Str))) (b : Block) :
    resolvePrefOrigin (block2event inv b) = some (blockOrigin inv b) := by
  unfold resolvePrefOrigin
  have h1 : (block2event inv b).prefOriginId =
      some ("smi:local/origin/".data ++ resolvedId inv b.evid) := rfl
  have h2 : (block2event inv b).origins = [blockOrigin inv b] := rfl
  have h3 : (blockOrigin inv b).rid = "smi:local/origin/".data ++ resolvedId inv b.evid := rfl
  rw [h1, h2]
  dsimp only
  rw [List.find?_cons, h3]
  simp

theorem resolvePrefMag_block_nan (inv : Option (List (Str × Str))) (b : Block)
    (h : isNanTok b.mg = true) :
    resolvePrefMag (block2event inv b) = none := by
  apply resolvePrefMag_none
  show (if isNanTok b.mg then []
    else [Magnitude.mk ((parseFloatTok b.mg).getD 0)
      ("smi:local/magnitude/".data ++ resolvedId inv b.evid)]) = []
  rw [if_pos h]

theorem resolvePrefMag_block_num (inv : Option (List (Str × Str))) (b : Block)
    (h : isNanTok b.mg = false) :
    resolvePrefMag (block2event inv b) =
      some (Magnitude.mk ((parseFloatTok b.mg).getD 0)
        ("smi:local/magnitude/".data ++ resolvedId inv b.evid)) := by
  unfold resolvePrefMag
  have h1 : (block2event inv b).prefMagId =
      (if isNanTok b.mg then none
       else some ("smi:local/magnitude/".data ++ resolvedId inv b.evid)) := rfl
  have h2 : (block2event inv b).magnitudes =
      (if isNanTok b.mg then []
       else [Magnitude.mk ((parseFloatTok b.mg).getD 0)
         ("smi:local/magnitude/".data ++ resolvedId inv b.evid)]) := rfl
  rw [h1, h2, if_neg (by simp [h]), if_neg (by simp [h])]
  dsimp only
  rw [List.find?_cons]
  simp

theorem splitLast_event_rid (b : Block) (hdig : b.evid.all Char.isDigit = true) :
    splitLast (block2event none b).rid = b.evid := by
  have hrid : (block2event none b).rid = "smi:local/event/".data ++ b.evid := rfl
  have hds : ("smi:local/event/".data : Str) = "smi:local/event".data ++ ['/'] := by decide
  rw [hrid, hds, List.append_assoc, List.singleton_append]
  exact splitLast_append _ _ (digit_str_no_slash hdig)

theorem writeStep_block (b : Block) (used : List Str) (c : Nat)
    (hd : pyIsdigit b.evid = true) (hlen : b.evid.length ≤ 9) (hu : b.evid ∉ used) :
    writeStep ⟨[], used, c⟩ none (block2event none b) =
      .ok (some (wblockOf (blockOrigin none b) (blockMagVal b) b.evid (block2event none b)),
        blockWarns b, ⟨[], used ++ [b.evid], c⟩, none) := by
  have hdig : b.evid.all Char.isDigit = true := by
    unfold pyIsdigit at hd
    exact (Bool.and_eq_true _ _ |>.mp hd).2
  unfold writeStep
  rw [resolvePrefOrigin_block, splitLast_event_rid b hdig, mapEventid_fresh hd hlen hu]
  by_cases hnan : isNanTok b.mg = true
  · rw [resolvePrefMag_block_nan none b hnan]
    dsimp only
    unfold blockMagVal blockWarns
    rw [if_pos hnan, if_pos hnan]
  · rw [resolvePrefMag_block_num none b (Bool.not_eq_true _ ▸ hnan)]
    dsimp only
    unfold blockMagVal blockWarns
    rw [if_neg hnan, if_neg hnan]

theorem DEG2KM_cast_ne : ((DEG2KM : ℚ) : ℝ) ≠ 0 := by
  have : (DEG2KM : ℚ) ≠ 0 := by norm_num [DEG2KM]
  exact_mod_cast this

theorem he_roundtrip (eh la : ℚ) (heh : 0 ≤ eh) (hla : (-90 : ℚ) < la) :
    max (match latErrOf eh with | none => (0 : ℝ) | some x => x * (DEG2KM : ℝ))
        (match lonErrOf eh la with
         | none => (0 : ℝ)
         | some x => x * (DEG2KM : ℝ) * Real.cos (deg2rad (la : ℝ))) = (eh : ℝ) := by
  by_cases h0 : eh = 0
  · subst h0
    rw [latErrOf, if_pos rfl, lonErrOf_eq, if_pos (Or.inl rfl)]
    simp
  · rw [latErrOf, if_neg h0, lonErrOf_eq]
    have hehpos : (0 : ℝ) < (eh : ℝ) := by
      have : (0 : ℚ) < eh := lt_of_le_of_ne heh (Ne.symm h0)
      exact_mod_cast this
    by_cases h89 : (89 : ℚ) < la
    · rw [if_pos (Or.inr h89)]
      dsimp only
      rw [div_mul_cancel₀ _ DEG2KM_cast_ne]
      exact max_eq_left hehpos.le
    · rw [if_neg (not_or.mpr ⟨h0, h89⟩)]
      dsimp only
      have hcos : 0 < Real.cos (deg2rad (la : ℝ)) := cos_deg_pos hla (not_lt.mp h89)
      have hB : (eh : ℝ) / (DEG2KM : ℝ) / Real.cos (deg2rad (la : ℝ)) * (DEG2KM : ℝ) *
          Real.cos (deg2rad (la : ℝ)) = (eh : ℝ) := by
        have hKc : (DEG2KM : ℝ) * Real.cos (deg2rad (la : ℝ)) ≠ 0 := by
          have hK : (0 : ℝ) < (DEG2KM : ℝ) := by
            have : (0 : ℚ) < DEG2KM := by norm_num [DEG2KM]
            exact_mod_cast this
          positivity
        field_simp
        ring
      rw [div_mul_cancel₀ _ DEG2KM_cast_ne, hB, max_self]

theorem laterr_roundtrip (eh : ℚ) :
    (if ((eh : ℚ) : ℝ) = 0 then none else some (((eh : ℚ) : ℝ) / (DEG2KM : ℝ))) =
      latErrOf eh := by
  rw [latErrOf]
  by_cases h : eh = 0
  · subst h
    simp
  · rw [if_neg h, if_neg (by exact_mod_cast h)]

/-- The timestamp reconstructed by the reader from the written time fields. -/
noncomputable def readTime (wb : WBlock) : UTC :=
  utcMk wb.year wb.month wb.day wb.hour wb.minute
    ((wb.second : ℚ) + (wb.micro : ℚ) / 1000000)

theorem utc_roundtrip (t : UTC) (n : ℤ) (hn : t.secs * 1000000 = (n : ℚ)) :
    utcMk t.year t.month t.day t.hour t.minute
      ((t.second : ℚ) + (t.micro : ℚ) / 1000000) = t := by
  unfold utcMk
  cases t with
  | mk y mo d s =>
    congr 1
    exact utc_reconstruct ⟨y, mo, d, s⟩ n hn

theorem weights_lookup (b : Block) {n : Nat} {p : BlockPick}
    (hp : b.picks.get? n = some p) :
    List.lookup n (weightsOf (blockOrigin none b)) = some p.weight := by
  have hmaps : (blockOrigin none b).arrivals.map (fun a => (a.pickId, a.timeWeight)) =
      b.picks.enum.map fun ip => (ip.1, ip.2.weight) := by
    show ((b.picks.enum.map fun ip => Arrival.mk ip.2.phase ip.1 ip.2.weight).map
      fun a => (a.pickId, a.timeWeight)) = _
    rw [List.map_map]
    rfl
  have hkeys : (((b.picks.enum.map fun ip => (ip.1, ip.2.weight)).map Prod.fst)).Nodup := by
    rw [List.map_map]
    have : (Prod.fst ∘ fun ip : Nat × BlockPick => (ip.1, ip.2.weight)) = Prod.fst := rfl
    rw [this]
    show (List.map Prod.fst (List.enumFrom 0 b.picks)).Nodup
    rw [List.enumFrom_map_fst]
    exact List.nodup_range' 0 b.picks.length
  show List.lookup n (((blockOrigin none b).arrivals.map
    fun a => (a.pickId, a.timeWeight)).reverse) = some p.weight
  rw [hmaps, lookup_reverse_eq hkeys]
  have := lookup_enumFrom_map (fun q : BlockPick => q.weight) b.picks 0 n p hp
  rw [Nat.zero_add] at this
  exact this

theorem block_RT (b : Block) (heh : 0 ≤ b.eh) (hla : (-90 : ℚ) < b.la)
    (nsc : ℤ) (hnsc : b.sc = (nsc : ℚ) / 1000000) (mag : ℚ) :
    EventRT (block2event none b)
      (readWBlock (wblockOf (blockOrigin none b) mag b.evid (block2event none b))) := by
  have hhe : (wblockOf (blockOrigin none b) mag b.evid (block2event none b)).he = (b.eh : ℝ) := by
    show max (match latErrOf b.eh with | none => (0 : ℝ) | some x => x * (DEG2KM : ℝ))
        (match lonErrOf b.eh b.la with
         | none => (0 : ℝ)
         | some x => x * (DEG2KM : ℝ) * Real.cos (deg2rad (b.la : ℝ))) = (b.eh : ℝ)
    exact he_roundtrip b.eh b.la heh hla
  have hve : (wblockOf (blockOrigin none b) mag b.evid (block2event none b)).ve = b.ez := by
    show (match (if b.ez = 0 then none else some (b.ez * 1000) : Option ℚ) with
          | none => (0 : ℚ) | some x => x / 1000) = b.ez
    by_cases hez : b.ez = 0
    · rw [if_pos hez]
      exact hez.symm
    · rw [if_neg hez]
      show b.ez * 1000 / 1000 = b.ez
      field_simp
  have hrv : (wblockOf (blockOrigin none b) mag b.evid (block2event none b)).rms =
      (if b.rms = 0 then (0 : ℚ) else b.rms) := by
    show ((if b.rms = 0 then none else some b.rms : Option ℚ)).getD 0 = _
    by_cases hr : b.rms = 0 <;> simp [hr]
  have hsecs : (blockOrigin none b).time.secs * 1000000 =
      ((b.hr * 3600000000 + b.mn * 60000000 + nsc : ℤ) : ℚ) := by
    show ((b.hr : ℚ) * 3600 + (b.mn : ℚ) * 60 + b.sc) * 1000000 = _
    rw [hnsc]
    push_cast
    ring
  refine ⟨blockOrigin none b, _, rfl, rfl, ?_, rfl, rfl, ?_, ?_, ?_, ?_, ?_, ?_, ?_, ?_⟩
  · exact utc_roundtrip ((blockOrigin none b).time) _ hsecs
  · show (1000 : ℚ) * ((1000 * b.dp) / 1000) = 1000 * b.dp
    field_simp
  · show (if (wblockOf (blockOrigin none b) mag b.evid (block2event none b)).he = 0 then none
      else some ((wblockOf (blockOrigin none b) mag b.evid (block2event none b)).he /
        (DEG2KM : ℝ))) = latErrOf b.eh
    rw [hhe]
    exact laterr_roundtrip b.eh
  · show (match (if (wblockOf (blockOrigin none b) mag b.evid (block2event none b)).he = 0 then
        none
      else some ((wblockOf (blockOrigin none b) mag b.evid (block2event none b)).he /
        (DEG2KM : ℝ)) : Option ℝ) with
      | none => none
      | some le => if (89 : ℚ) < b.la then none
                   else some (le / Real.cos (deg2rad (b.la : ℝ)))) = lonErrOf b.eh b.la
    rw [hhe, laterr_roundtrip b.eh]
    rfl
  · show (if (wblockOf (blockOrigin none b) mag b.evid (block2event none b)).ve = 0 then none
      else some ((wblockOf (blockOrigin none b) mag b.evid (block2event none b)).ve * 1000)) =
      (if b.ez = 0 then none else some (b.ez * 1000))
    rw [hve]
  · show (if (wblockOf (blockOrigin none b) mag b.evid (block2event none b)).rms = 0 then none
      else some ((wblockOf (blockOrigin none b) mag b.evid (block2event none b)).rms)) =
      (if b.rms = 0 then none else some b.rms)
    rw [hrv]
    by_cases hr : b.rms = 0 <;> simp [hr]
  · show ((wpicksOf (block2event none b) (blockOrigin none b)).map fun p =>
      Pick.mk p.sta p.phase
        ((readTime (wblockOf (blockOrigin none b) mag b.evid (block2event none b))).add
          p.relt)).length = (block2event none b).picks.length
    rw [List.length_map]
    unfold wpicksOf
    rw [List.length_map]
    show (List.enumFrom 0 (block2event none b).picks).length = _
    rw [List.enumFrom_length]
  · intro i p1 p2 h1 h2
    have hm : (readWBlock (wblockOf (blockOrigin none b) mag b.evid
        (block2event none b))).picks.get? i =
        (((block2event none b).picks.get? i).map fun p =>
          Pick.mk p.station p.phaseHint
            ((readTime (wblockOf (blockOrigin none b) mag b.evid (block2event none b))).add
              (round4 (p.time.sub (blockOrigin none b).time)))) := by
      show ((wpicksOf (block2event none b) (blockOrigin none b)).map fun p =>
        Pick.mk p.sta p.phase
          ((readTime (wblockOf (blockOrigin none b) mag b.evid (block2event none b))).add
            p.relt)).get? i = _
      rw [List.get?_map]
      unfold wpicksOf
      rw [List.get?_map, List.get?_enum]
      cases (block2event none b).picks.get? i <;> rfl
    rw [hm, h1] at h2
    injection h2 with h2
    subst h2
    exact ⟨rfl, rfl, utc_add_sub _ _⟩
  · show ((wpicksOf (block2event none b) (blockOrigin none b)).enum.map fun ip =>
      Arrival.mk ip.2.phase ip.1 ip.2.weight) = (blockOrigin none b).arrivals
    apply List.ext_get?_iff.mpr
    intro n
    show (((wpicksOf (block2event none b) (blockOrigin none b)).enum.map fun ip =>
      Arrival.mk ip.2.phase ip.1 ip.2.weight)).get? n =
      ((b.picks.enum.map fun ip => Arrival.mk ip.2.phase ip.1 ip.2.weight)).get? n
    rw [List.get?_map, List.get?_enum, List.get?_map, List.get?_enum]
    unfold wpicksOf
    rw [List.get?_map, List.get?_enum]
    cases hp : b.picks.get? n with
    | none =>
      have hp2 : (block2event none b).picks.get? n = none := by
        show ((b.picks.map fun p =>
          Pick.mk p.sta p.phase
            ((utcMk b.yr b.mo b.dy b.hr b.mn b.sc).add p.reltime)).get? n) = none
        rw [List.get?_map, hp]
        rfl
      rw [hp2]
      rfl
    | some p =>
      have hp2 : (block2event none b).picks.get? n =
          some (Pick.mk p.sta p.phase
            ((utcMk b.yr b.mo b.dy b.hr b.mn b.sc).add p.reltime)) := by
        show ((b.picks.map fun p =>
          Pick.mk p.sta p.phase
            ((utcMk b.yr b.mo b.dy b.hr b.mn b.sc).add p.reltime)).get? n) = _
        rw [List.get?_map, hp]
        rfl
      rw [hp2]
      have hw := weights_lookup b hp
      show some (Arrival.mk p.phase n (((List.lookup n
        (weightsOf (blockOrigin none b))).getD 1))) = some (Arrival.mk p.phase n p.weight)
      rw [hw]
      rfl

theorem writeGo_roundtrip (blocks : List Block) :
    ∀ (used : List Str) (c : Nat),
      (∀ b ∈ blocks, WfBlock b) →
      (blocks.map Block.evid).Nodup →
      (∀ b ∈ blocks, b.evid ∉ used) →
      ∃ wbs ws used2 c2,
        writePhaGo (readPhaCat none blocks) ⟨[], used, c⟩ none =
          .ok (wbs, ws, ⟨[], used2, c2⟩, none) ∧
        wbs.length = blocks.length ∧
        (∀ i e1 e2, (readPhaCat none blocks).get? i = some e1 →
          (wbs.map readWBlock).get? i = some e2 → EventRT e1 e2) := by
  induction blocks with
  | nil =>
    intro used c _ _ _
    refine ⟨[], [], used, c, rfl, rfl, ?_⟩
    intro i e1 e2 h1 _
    simp [readPhaCat] at h1
  | cons b bs ih =>
    intro used c hwf hnd hfresh
    obtain ⟨hd, hlen, heh, hla, nsc, hnsc⟩ := hwf b (List.mem_cons_self _ _)
    have hstep := writeStep_block b used c hd hlen (hfresh b (List.mem_cons_self _ _))
    rw [List.map_cons] at hnd
    have hndh := (List.nodup_cons.mp hnd).1
    have hndt := (List.nodup_cons.mp hnd).2
    have hfresh2 : ∀ b2 ∈ bs, b2.evid ∉ used ++ [b.evid] := by
      intro b2 hb2
      rw [List.mem_append]
      push_neg
      refine ⟨hfresh b2 (List.mem_cons_of_mem _ hb2), ?_⟩
      rw [List.mem_singleton]
      intro hh
      exact hndh (hh ▸ List.mem_map_of_mem Block.evid hb2)
    rcases ih (used ++ [b.evid]) c (fun b2 hb2 => hwf b2 (List.mem_cons_of_mem _ hb2))
      hndt hfresh2 with ⟨wbs, ws, used2, c2, hgo, hlens, hRT⟩
    refine ⟨wblockOf (blockOrigin none b) (blockMagVal b) b.evid (block2event none b) :: wbs,
      blockWarns b ++ ws, used2, c2, ?_, ?_, ?_⟩
    · show writePhaGo (block2event none b :: readPhaCat none bs) ⟨[], used, c⟩ none = _
      simp only [writePhaGo, hstep, hgo, Option.toList_some, List.singleton_append]
    · simp [hlens]
    · intro i e1 e2 h1 h2
      cases i with
      | zero =>
        rw [show (readPhaCat none (b :: bs)).get? 0 = some (block2event none b) from rfl] at h1
        injection h1 with h1
        subst h1
        rw [List.map_cons, List.get?_cons_zero] at h2
        injection h2 with h2
        subst h2
        exact block_RT b heh hla nsc hnsc (blockMagVal b)
      | succ j =>
        rw [show (readPhaCat none (b :: bs)).get? (j + 1) = (readPhaCat none bs).get? j
          from rfl] at h1
        rw [List.map_cons, List.get?_cons_succ] at h2
        exact hRT j e1 e2 h1 h2

/-- Claim C1 (amended): reading a well-formed PHA file with purely numeric,
pairwise distinct event ids of at most 9 digits, writing the catalog with
`_write_pha` and re-reading the output reproduces, event by event, the exact
origin times, latitudes, longitudes, depths, latitude/longitude/depth errors
and RMS values, the pick phases and stations, and the arrival weights; the
re-read relative pick times equal the original relative times rounded to 4
decimal places (the `.4f` pick-line format), so they are identical exactly
when the original relative times carry at most 4 decimals. -/
theorem claim_C1 (blocks : List Block)
    (hwf : ∀ b ∈ blocks, WfBlock b)
    (hnd : (blocks.map Block.evid).Nodup) :
    ∃ wbs ws ret,
      writePha (readPhaCat none blocks) none = .ok (wbs, ws, ret) ∧
      wbs.length = blocks.length ∧
      (∀ i e1 e2, (readPhaCat none blocks).get? i = some e1 →
        (wbs.map readWBlock).get? i = some e2 → EventRT e1 e2) := by
  rcases writeGo_roundtrip blocks [] 1000 hwf hnd (by simp) with
    ⟨wbs, ws, used2, c2, hgo, hlens, hRT⟩
  have hgo2 : writePhaGo (readPhaCat none blocks)
      ⟨seedMap none, (seedMap none).map Prod.snd, 1000⟩ none =
      .ok (wbs, ws, ⟨[], used2, c2⟩, none) := hgo
  refine ⟨wbs, ws, WriteRet.nothing, ?_, hlens, hRT⟩
  unfold writePha
  dsimp only
  rw [hgo2]
  rfl

/-- A well-formed single-event file whose pick relative time has five decimal
places. -/
def fineBlock : Block :=
  { yr := 2000, mo := 1, dy := 1, hr := 0, mn := 0, sc := 0,
    la := 0, lo := 0, dp := 0, mg := ['1'], eh := 0, ez := 0, rms := 0,
    evid := ['1'],
    picks := [BlockPick.mk ['S'] (123456 / 100000) 1 ['P']] }

/-- The relative pick times of the first event of a catalog (pick time minus
origin time). -/
def firstRelts (es : List Event) : Option (List ℚ) :=
  match es with
  | [] => none
  | e :: _ => (e.origins.head?).map fun o => e.picks.map fun p => p.time.sub o.time

/-- The relative pick times of the first event after writing and re-reading
a catalog read from the given blocks. -/
noncomputable def rtRelts (blocks : List Block) : Option (Option (List ℚ)) :=
  match writePha (readPhaCat none blocks) none with
  | .error _ => none
  | .ok (wbs, _, _) => some (firstRelts (wbs.map readWBlock))

theorem enum_map_proj {α β : Type} (F : Nat × α → β) (G : α → β)
    (hFG : ∀ n a, F (n, a) = G a) :
    ∀ (l : List α) (s : Nat), (List.enumFrom s l).map F = l.map G := by
  intro l
  induction l with
  | nil => intro s; rfl
  | cons x xs ih =>
    intro s
    show F (s, x) :: (List.enumFrom (s + 1) xs).map F = G x :: xs.map G
    rw [hFG, ih]

theorem firstRelts_block (b : Block) :
    firstRelts (readPhaCat none [b]) = some (b.picks.map fun p => p.reltime) := by
  show some ((b.picks.map fun p =>
    Pick.mk p.sta p.phase ((utcMk b.yr b.mo b.dy b.hr b.mn b.sc).add p.reltime)).map
      fun p : Pick => p.time.sub (blockOrigin none b).time) = _
  rw [List.map_map]
  congr 1
  apply List.map_congr_left
  intro p _
  show ((utcMk b.yr b.mo b.dy b.hr b.mn b.sc).add p.reltime).sub
    ((blockOrigin none b).time) = p.reltime
  rw [show (blockOrigin none b).time = utcMk b.yr b.mo b.dy b.hr b.mn b.sc from rfl]
  exact utc_add_sub _ _

theorem firstRelts_readW (b : Block) (mag : ℚ) :
    firstRelts [readWBlock (wblockOf (blockOrigin none b) mag b.evid (block2event none b))] =
      some (b.picks.map fun p => round4 p.reltime) := by
  show some (((readWBlock (wblockOf (blockOrigin none b) mag b.evid
      (block2event none b))).picks).map fun p : Pick =>
      p.time.sub (readTime (wblockOf (blockOrigin none b) mag b.evid
        (block2event none b)))) = _
  congr 1
  show ((wpicksOf (block2event none b) (blockOrigin none b)).map fun p =>
      Pick.mk p.sta p.phase
        ((readTime (wblockOf (blockOrigin none b) mag b.evid (block2event none b))).add
          p.relt)).map (fun p : Pick =>
      p.time.sub (readTime (wblockOf (blockOrigin none b) mag b.evid
        (block2event none b)))) = _
  rw [List.map_map]
  unfold wpicksOf
  rw [List.map_map]
  rw [show List.enum ((block2event none b).picks) =
    List.enumFrom 0 ((block2event none b).picks) from rfl]
  rw [enum_map_proj _
    (fun a : Pick =>
      ((readTime (wblockOf (blockOrigin none b) mag b.evid (block2event none b))).add
        (round4 (a.time.sub (blockOrigin none b).time))).sub
        (readTime (wblockOf (blockOrigin none b) mag b.evid (block2event none b))))
    (fun n a => rfl)]
  rw [show (block2event none b).picks = b.picks.map (fun p =>
    Pick.mk p.sta p.phase
      ((utcMk b.yr b.mo b.dy b.hr b.mn b.sc).add p.reltime)) from rfl]
  rw [List.map_map]
  apply List.map_congr_left
  intro p _
  show ((readTime (wblockOf (blockOrigin none b) mag b.evid (block2event none b))).add
      (round4 ((((utcMk b.yr b.mo b.dy b.hr b.mn b.sc).add p.reltime)).sub
        ((blockOrigin none b).time)))).sub
      (readTime (wblockOf (blockOrigin none b) mag b.evid (block2event none b))) =
    round4 p.reltime
  rw [utc_add_sub]
  congr 1
  rw [show (blockOrigin none b).time = utcMk b.yr b.mo b.dy b.hr b.mn b.sc from rfl]
  exact utc_add_sub _ _

/-- Claim C1, counterexample: a well-formed file with the numeric id "1" and
one pick at relative time 1.23456 seconds round-trips to relative time 1.2346
(the `.4f` pick-line format keeps 4 decimals), so the pick relative times are
not identical as the claim states. -/
theorem claim_C1_counterexample :
    pyIsdigit fineBlock.evid = true ∧ fineBlock.evid.length ≤ 9 ∧
    ([fineBlock].map Block.evid).Nodup ∧
    firstRelts (readPhaCat none [fineBlock]) = some [123456 / 100000] ∧
    rtRelts [fineBlock] = some (some [12346 / 10000]) ∧
    (123456 / 100000 : ℚ) ≠ (12346 / 10000 : ℚ) := by
  refine ⟨by decide, by decide, by decide, ?_, ?_, by norm_num⟩
  · rw [firstRelts_block]
    rfl
  · have hstep := writeStep_block fineBlock [] 1000 (by decide) (by decide) (by simp)
    have hgo : writePhaGo (readPhaCat none [fineBlock]) ⟨[], [], 1000⟩ none =
        .ok ([wblockOf (blockOrigin none fineBlock) (blockMagVal fineBlock) fineBlock.evid
          (block2event none fineBlock)], blockWarns fineBlock ++ [],
          ⟨[], [] ++ [fineBlock.evid], 1000⟩, none) := by
      show writePhaGo [block2event none fineBlock] ⟨[], [], 1000⟩ none = _
      simp only [writePhaGo, hstep, Option.toList_some, List.singleton_append]
    have hw : writePha (readPhaCat none [fineBlock]) none =
        .ok ([wblockOf (blockOrigin none fineBlock) (blockMagVal fineBlock) fineBlock.evid
          (block2event none fineBlock)], blockWarns fineBlock ++ [], WriteRet.nothing) := by
      unfold writePha
      dsimp only
      have hgo2 : writePhaGo (readPhaCat none [fineBlock])
          ⟨seedMap none, (seedMap none).map Prod.snd, 1000⟩ none =
          .ok ([wblockOf (blockOrigin none fineBlock) (blockMagVal fineBlock) fineBlock.evid
            (block2event none fineBlock)], blockWarns fineBlock ++ [],
            ⟨[], [] ++ [fineBlock.evid], 1000⟩, none) := hgo
      rw [hgo2]
      rfl
    unfold rtRelts
    rw [hw]
    dsimp only
    rw [show ([wblockOf (blockOrigin none fineBlock) (blockMagVal fineBlock) fineBlock.evid
      (block2event none fineBlock)]).map readWBlock =
      [readWBlock (wblockOf (blockOrigin none fineBlock) (blockMagVal fineBlock)
        fineBlock.evid (block2event none fineBlock))] from rfl]
    rw [firstRelts_readW]
    show some (some [round4 (123456 / 100000)]) = _
    have : round4 (123456 / 100000 : ℚ) = 12346 / 10000 := by
      norm_num [round4, round_eq]
    rw [this]

theorem fineBlock_wf : WfBlock fineBlock :=
  ⟨by decide, by decide, by norm_num [fineBlock], by norm_num [fineBlock],
    0, by norm_num [fineBlock]⟩

/-- Witness for the amended claim C1 at the concrete single-block file. -/
theorem claim_C1_witness :
    (∀ b ∈ [fineBlock], WfBlock b) ∧ ([fineBlock].map Block.evid).Nodup ∧
      ∃ wbs ws ret,
        writePha (readPhaCat none [fineBlock]) none = .ok (wbs, ws, ret) ∧
        wbs.length = [fineBlock].length ∧
        (∀ i e1 e2, (readPhaCat none [fineBlock]).get? i = some e1 →
          (wbs.map readWBlock).get? i = some e2 → EventRT e1 e2) :=
  ⟨fun b hb => by rw [List.mem_singleton] at hb; exact hb ▸ fineBlock_wf,
   by decide,
   claim_C1 [fineBlock]
     (fun b hb => by rw [List.mem_singleton] at hb; exact hb ▸ fineBlock_wf)
     (by decide)⟩

end Pha
